import Mathlib

/-!
# hamon: words to IP addresses and back (djb2)

A shallow embedding of `main.go`.

Modelling conventions.

* A Go `string` is modelled by `Str`, the list of its Unicode code points.  Every string that
  reaches the functions below has passed `strings.ToLower` (`handleForward`, `handleReverse`,
  `loadWordMappings`) or was produced by `fmt.Sprintf` from such strings, hence is valid UTF-8, and
  `for _, char := range s` then visits exactly these code points.  The builtin `len(s)` counts
  bytes and is modelled by `len` (the sum of the UTF-8 widths).
* `uint32` values are natural numbers below `2 ^ 32`; every operation is followed by an explicit
  `% 2 ^ 32`.
* The tables of the `unicode` package depend on the Unicode version of the Go toolchain and are
  parameters: `caseTable` is the lower-case mapping beyond ASCII, `digitTable` the decimal digits
  beyond U+00FF.
* Printing to standard output is modelled by returning what is printed.
* The unbounded loop of `generateFallbackWord` is modelled with a fuel argument bounding the
  counter `i`; "the call returns" means that some amount of fuel produces a result.
-/

namespace Hamon

/-- A Go string (valid UTF-8), as the sequence of its code points. -/
abbrev Str := List Char

/-- The builtin `len` on strings: the number of bytes of the UTF-8 encoding. -/
def len (s : Str) : Nat := (s.map Char.utf8Size).sum

/-- Left shift on `uint32`. -/
def shl32 (x k : Nat) : Nat := (x * 2 ^ k) % 2 ^ 32

/-- Addition on `uint32`. -/
def add32 (x y : Nat) : Nat := (x + y) % 2 ^ 32

/-- The loop body of `djb2Hash`: `hash = ((hash << 5) + hash) + uint32(char)`. -/
def djb2Step (hash : Nat) (char : Char) : Nat :=
  add32 (add32 (shl32 hash 5) hash) (char.toNat % 2 ^ 32)

/-- The function `djb2Hash` of `main.go`. -/
def djb2Hash (word : Str) : Nat :=
  word.foldl djb2Step 5381

/-- The verb `%d` of `fmt.Sprintf` on an unsigned value: decimal digits, no padding. -/
def fmtD (n : Nat) : Str := Nat.toDigits 10 n

/-- The verb `%04x` of `fmt.Sprintf` on an unsigned value: lowercase hexadecimal digits,
padded on the left with zeros to a width of at least 4. -/
def fmt04x (n : Nat) : Str := List.leftpad 4 '0' (Nat.toDigits 16 n)

/-- The function `getIPBlock` of `main.go`. -/
def getIPBlock (word : Str) (isIPv6 : Bool) : Str :=
  let hash := djb2Hash word
  if isIPv6 then fmt04x (hash % 65536) else fmtD (hash % 256)

/-- Equality of outcomes is decidable, so that closed examples can be evaluated. -/
instance decEqExcept {ε α : Type} [DecidableEq ε] [DecidableEq α] : DecidableEq (Except ε α)
  | .ok a, .ok b =>
    if h : a = b then isTrue (by rw [h]) else isFalse (fun e => h (Except.ok.inj e))
  | .error a, .error b =>
    if h : a = b then isTrue (by rw [h]) else isFalse (fun e => h (Except.error.inj e))
  | .ok _, .error _ => isFalse (fun e => Except.noConfusion e)
  | .error _, .ok _ => isFalse (fun e => Except.noConfusion e)

/-! ## Library functions used by `main.go` -/

/-- The call `strings.Split(s, sep)` for a separator `sep` of one character: the pieces between
the occurrences of the separator (one more piece than there are separators). -/
def stringsSplit : Str → Char → List Str
  | [], _ => [[]]
  | c :: cs, sep =>
    if c = sep then [] :: stringsSplit cs sep
    else
      match stringsSplit cs sep with
      | [] => [[c]]
      | p :: ps => (c :: p) :: ps

/-- The call `strings.Join(elems, sep)` for a separator of one character. -/
def stringsJoin (elems : List Str) (sep : Char) : Str := List.intercalate [sep] elems

/-- The lower-case mapping `unicode.ToLower`: the letters `A` to `Z` are shifted to `a` to `z`,
the other ASCII characters are unchanged, and a character beyond ASCII is looked up in the case
tables of the `unicode` package, which are the parameter `caseTable`. -/
def unicodeToLower (caseTable : Char → Char) (r : Char) : Char :=
  if r.toNat ≤ 0x7F then
    if 'A'.toNat ≤ r.toNat ∧ r.toNat ≤ 'Z'.toNat then Char.ofNat (r.toNat + ('a'.toNat - 'A'.toNat))
    else r
  else caseTable r

/-- The call `strings.ToLower(s)`: every character is mapped by `unicode.ToLower`. -/
def stringsToLower (caseTable : Char → Char) (s : Str) : Str := s.map (unicodeToLower caseTable)

/-- The ranges of the decimal digits (category Nd) in the tables of the `unicode` package as of
Unicode 15.0.0.  The table grows with the Unicode version of the Go toolchain, so the functions
below take the table as a parameter; this version serves in closed examples. -/
def unicodeNd : List (Nat × Nat) :=
  [(0x0030, 0x0039), (0x0660, 0x0669), (0x06f0, 0x06f9), (0x07c0, 0x07c9), (0x0966, 0x096f),
   (0x09e6, 0x09ef), (0x0a66, 0x0a6f), (0x0ae6, 0x0aef), (0x0b66, 0x0b6f), (0x0be6, 0x0bef),
   (0x0c66, 0x0c6f), (0x0ce6, 0x0cef), (0x0d66, 0x0d6f), (0x0de6, 0x0def), (0x0e50, 0x0e59),
   (0x0ed0, 0x0ed9), (0x0f20, 0x0f29), (0x1040, 0x1049), (0x1090, 0x1099), (0x17e0, 0x17e9),
   (0x1810, 0x1819), (0x1946, 0x194f), (0x19d0, 0x19d9), (0x1a80, 0x1a89), (0x1a90, 0x1a99),
   (0x1b50, 0x1b59), (0x1bb0, 0x1bb9), (0x1c40, 0x1c49), (0x1c50, 0x1c59), (0xa620, 0xa629),
   (0xa8d0, 0xa8d9), (0xa900, 0xa909), (0xa9d0, 0xa9d9), (0xa9f0, 0xa9f9), (0xaa50, 0xaa59),
   (0xabf0, 0xabf9), (0xff10, 0xff19), (0x104a0, 0x104a9), (0x10d30, 0x10d39),
   (0x11066, 0x1106f), (0x110f0, 0x110f9), (0x11136, 0x1113f), (0x111d0, 0x111d9),
   (0x112f0, 0x112f9), (0x11450, 0x11459), (0x114d0, 0x114d9), (0x11650, 0x11659),
   (0x116c0, 0x116c9), (0x11730, 0x11739), (0x118e0, 0x118e9), (0x11950, 0x11959),
   (0x11c50, 0x11c59), (0x11d50, 0x11d59), (0x11da0, 0x11da9), (0x11f50, 0x11f59),
   (0x16a60, 0x16a69), (0x16ac0, 0x16ac9), (0x16b50, 0x16b59), (0x1d7ce, 0x1d7ff),
   (0x1e140, 0x1e149), (0x1e2f0, 0x1e2f9), (0x1e4f0, 0x1e4f9), (0x1e950, 0x1e959),
   (0x1fbf0, 0x1fbf9)]

/-- The table `unicode.Digit` of Unicode 15.0.0, as a predicate. -/
def unicodeDigit15 (r : Char) : Bool :=
  unicodeNd.any (fun p => decide (p.1 ≤ r.toNat ∧ r.toNat ≤ p.2))

/-- The predicate `unicode.IsDigit`: up to U+00FF the characters `0` to `9`, beyond that the
decimal digits of every script, looked up in the table `unicode.Digit` of the toolchain, which
is the parameter `digitTable`. -/
def unicodeIsDigit (digitTable : Char → Bool) (r : Char) : Bool :=
  if r.toNat ≤ 0xFF then decide ('0'.toNat ≤ r.toNat ∧ r.toNat ≤ '9'.toNat)
  else digitTable r

/-- The two errors of `strconv`: `ErrSyntax` and `ErrRange`. -/
inductive NumError
  | malformed
  | outOfRange
  deriving DecidableEq, Repr

/-- The digit loop of `strconv.ParseUint(s, 10, bitSize)` on `uint64`, from the accumulator `n`:
the value and the error, if any.  `maxVal` is `1<<bitSize - 1`. -/
def parseUintLoop (maxVal : Nat) : Nat → Str → Nat × Option NumError
  | n, [] => (n, none)
  | n, c :: cs =>
    if '0'.toNat ≤ c.toNat ∧ c.toNat ≤ '9'.toNat then
      let d := c.toNat - '0'.toNat
      if n ≥ (2 ^ 64 - 1) / 10 + 1 then (maxVal, some NumError.outOfRange)
      else
        let n := n * 10
        let n1 := (n + d) % 2 ^ 64
        if n1 < n ∨ n1 > maxVal then (maxVal, some NumError.outOfRange)
        else parseUintLoop maxVal n1 cs
    else (0, some NumError.malformed)

/-- The call `strconv.ParseUint(s, 10, 0)` where `int` has `intSize` bits. -/
def parseUint (intSize : Nat) (s : Str) : Nat × Option NumError :=
  if s = [] then (0, some NumError.malformed)
  else parseUintLoop (2 ^ intSize - 1) 0 s

/-- The part of `strconv.ParseInt(s, 10, 0)` after the leading sign is picked off: `neg` tells
whether the sign was `-`, and `s1` is the rest of the input. -/
def parseIntUnsigned (intSize : Nat) (neg : Bool) (s1 : Str) : Except NumError Int :=
  match parseUint intSize s1 with
  | (_, some NumError.malformed) => .error NumError.malformed
  | (un, _) =>
    let cutoff := 2 ^ (intSize - 1)
    if !neg ∧ un ≥ cutoff then .error NumError.outOfRange
    else if neg ∧ un > cutoff then .error NumError.outOfRange
    else .ok (if neg then - (un : Int) else (un : Int))

/-- The call `strconv.ParseInt(s, 10, 0)` where `int` has `intSize` bits. -/
def parseInt (intSize : Nat) (s : Str) : Except NumError Int :=
  match s with
  | [] => .error NumError.malformed
  | c :: cs =>
    if c = '+' then parseIntUnsigned intSize false cs
    else if c = '-' then parseIntUnsigned intSize true cs
    else parseIntUnsigned intSize false (c :: cs)

/-- The digit loop of the fast path of `strconv.Atoi`. -/
def atoiFastLoop : Nat → Str → Except NumError Nat
  | n, [] => .ok n
  | n, ch :: rest =>
    if '0'.toNat ≤ ch.toNat ∧ ch.toNat ≤ '9'.toNat then
      atoiFastLoop (n * 10 + (ch.toNat - '0'.toNat)) rest
    else .error NumError.malformed

/-- The fast path of `strconv.Atoi` after the leading sign is picked off. -/
def atoiFast (neg : Bool) (s1 : Str) : Except NumError Int :=
  match atoiFastLoop 0 s1 with
  | .error e => .error e
  | .ok n => .ok (if neg then - (n : Int) else (n : Int))

/-- The call `strconv.Atoi(s)` where `int` has `intSize` bits (32 or 64): short inputs take the
fast path, the others go through `ParseInt`.  Both loops run over the bytes of `s`; a byte of a
character beyond ASCII is no digit, so the loops of the model run over the characters. -/
def atoi (intSize : Nat) (s : Str) : Except NumError Int :=
  let sLen := len s
  if (intSize = 32 ∧ 0 < sLen ∧ sLen < 10) ∨ (intSize = 64 ∧ 0 < sLen ∧ sLen < 19) then
    match s with
    | [] => .error NumError.malformed
    | c :: cs =>
      if c = '-' ∨ c = '+' then
        if len cs < 1 then .error NumError.malformed
        else atoiFast (decide (c = '-')) cs
      else atoiFast false (c :: cs)
  else parseInt intSize s

/-! ## The functions of `main.go` -/

/-- The function `isValidHex` of `main.go`; the loop over the characters. -/
def isValidHexLoop (digitTable : Char → Bool) : Str → Bool
  | [] => true
  | char :: rest =>
    if !unicodeIsDigit digitTable char &&
        (decide (char.toNat < 'a'.toNat) || decide (char.toNat > 'f'.toNat))
    then false
    else isValidHexLoop digitTable rest

/-- The function `isValidHex` of `main.go`. -/
def isValidHex (digitTable : Char → Bool) (block : Str) : Bool :=
  if len block > 4 then false else isValidHexLoop digitTable block

/-- The function `isValidNumber` of `main.go`, where `int` has `intSize` bits. -/
def isValidNumber (intSize : Nat) (block : Str) : Bool :=
  match atoi intSize block with
  | .error _ => false
  | .ok _ => true

/-- The function `isValidBlock` of `main.go`. -/
def isValidBlock (intSize : Nat) (digitTable : Char → Bool) (block : Str) (isIPv6 : Bool) :
    Bool :=
  if isIPv6 then isValidHex digitTable block else isValidNumber intSize block

/-- The function `ipType` of `main.go`. -/
def ipType (isIPv6 : Bool) : Str := if isIPv6 then "IPv6".toList else "IPv4".toList

/-- The function `blockType` of `main.go`. -/
def blockType (isIPv6 : Bool) : Str := if isIPv6 then "hex".toList else "number".toList

/-- The Go type `map[string][]string`: a key is absent (`none`) or bound to a list of words. -/
abbrev WordMap := Str → Option (List Str)

/-- The empty map made by `make(map[string][]string)`. -/
def emptyWordMap : WordMap := fun _ => none

/-- The statement `m[block] = append(m[block], word)`; a missing key reads as the empty list. -/
def appendWord (m : WordMap) (block word : Str) : WordMap :=
  fun k => if k = block then some ((m block).getD [] ++ [word]) else m k

/-- The scanning loop of `loadWordMappings` (lines 107 to 116) over the lines of the file:
the map `blockToWords` and the list `allWords`. -/
def loadLoop (caseTable : Char → Char) (isIPv6 : Bool) :
    List Str → WordMap × List Str → WordMap × List Str
  | [], st => st
  | text :: rest, (blockToWords, allWords) =>
    let word := stringsToLower caseTable text
    let block := getIPBlock word isIPv6
    loadLoop caseTable isIPv6 rest (appendWord blockToWords block word, allWords ++ [word])

/-- The function `loadWordMappings` of `main.go`.  The file is given by the outcome of reading
it: an error of the operating system or of the scanner, or the lines in order. -/
def loadWordMappings (caseTable : Char → Char) (file : Except Str (List Str)) (isIPv6 : Bool) :
    Except Str (WordMap × List Str) :=
  match file with
  | .error err => .error err
  | .ok lines => .ok (loadLoop caseTable isIPv6 lines (emptyWordMap, []))

/-- The function `generateIP` of `main.go`: `.error` carries the error line it prints, `.ok` the
address it prints (lines are given without the final newline). -/
def generateIP (words : List Str) (isIPv6 : Bool) : Except Str Str :=
  let expectedLength := if !isIPv6 then 4 else 8
  let separator := if !isIPv6 then '.' else ':'
  if words.length ≠ expectedLength then
    .error ("Error: Please provide exactly ".toList ++ fmtD expectedLength ++
      " words separated by ".toList ++ [separator] ++ ".".toList)
  else
    let ipBlocks := words.map (fun word => getIPBlock word isIPv6)
    .ok (stringsJoin ipBlocks separator)

/-- The inner loop of `generateFallbackWord`, for one value of the counter `i`. -/
def fallbackInner (block : Str) (isIPv6 : Bool) (i : Nat) : List Str → Option Str
  | [] => none
  | word :: rest =>
    let combinedWord := word ++ fmtD i
    let ipBlock := getIPBlock combinedWord isIPv6
    if ipBlock = block then some combinedWord else fallbackInner block isIPv6 i rest

/-- The outer loop of `generateFallbackWord` from the counter `i`, for at most `fuel` values of
the counter. -/
def fallbackFrom (allWords : List Str) (block : Str) (isIPv6 : Bool) : Nat → Nat → Option Str
  | 0, _ => none
  | fuel + 1, i =>
    match fallbackInner block isIPv6 i allWords with
    | some combinedWord => some combinedWord
    | none => fallbackFrom allWords block isIPv6 fuel (i + 1)

/-- The function `generateFallbackWord` of `main.go`, the counter bounded by `fuel`: `none` when
no candidate with a counter below `fuel` matches.  The counter is a natural number: the
wrap-around of the Go `int` after `2 ^ 63 - 1` steps (`2 ^ 31 - 1` on a 32-bit platform) is not
modelled. -/
def generateFallbackWord (fuel : Nat) (allWords : List Str) (block : Str) (isIPv6 : Bool) :
    Option Str :=
  fallbackFrom allWords block isIPv6 fuel 0

/-- Why a run of the reverse direction does not complete. -/
inductive Halt
  | outOfFuel
  | crash
  deriving DecidableEq, Repr

/-- One report of `printFull`. -/
inductive FullLine
  | found (number : Nat) (block : Str) (words : List Str)
  | fallback (number : Nat) (block : Str) (fallbackWord : Str)
  deriving DecidableEq, Repr

/-- The loop of `printFull` from the position `i`: one report per block (the notice
`No words found` that precedes a fallback report is left out). -/
def printFullLoop (fuel : Nat) (blockToWords : WordMap) (allWords : List Str) (isIPv6 : Bool) :
    List Str → Nat → Except Halt (List FullLine)
  | [], _ => .ok []
  | block :: rest, i =>
    match blockToWords block with
    | none =>
      match generateFallbackWord fuel allWords block isIPv6 with
      | none => .error Halt.outOfFuel
      | some fallbackWord =>
        match printFullLoop fuel blockToWords allWords isIPv6 rest (i + 1) with
        | .error e => .error e
        | .ok reports => .ok (FullLine.fallback (i + 1) block fallbackWord :: reports)
    | some words =>
      match printFullLoop fuel blockToWords allWords isIPv6 rest (i + 1) with
      | .error e => .error e
      | .ok reports => .ok (FullLine.found (i + 1) block words :: reports)

/-- The function `printFull` of `main.go`. -/
def printFull (fuel : Nat) (blocks : List Str) (blockToWords : WordMap) (allWords : List Str)
    (isIPv6 : Bool) : Except Halt (List FullLine) :=
  printFullLoop fuel blockToWords allWords isIPv6 blocks 0

/-- The loop of `printRandom`.  The random source is the stream `rand` of raw draws: the call
number `calls` of `rand.Intn(n)` crashes when `n` is 0 and returns `rand calls % n` otherwise;
an index out of range crashes too. -/
def printRandomLoop (fuel : Nat) (rand : Nat → Nat) (blockToWords : WordMap)
    (allWords : List Str) (isIPv6 : Bool) : List Str → Nat → List Str → Except Halt (List Str)
  | [], _, result => .ok result
  | block :: rest, calls, result =>
    match blockToWords block with
    | none =>
      match generateFallbackWord fuel allWords block isIPv6 with
      | none => .error Halt.outOfFuel
      | some fallbackWord =>
        printRandomLoop fuel rand blockToWords allWords isIPv6 rest calls (result ++ [fallbackWord])
    | some words =>
      if words.length = 0 then .error Halt.crash
      else
        match words.get? (rand calls % words.length) with
        | none => .error Halt.crash
        | some randomWord =>
          printRandomLoop fuel rand blockToWords allWords isIPv6 rest (calls + 1)
            (result ++ [randomWord])

/-- The word sequence `result` that `printRandom` builds. -/
def printRandomWords (fuel : Nat) (rand : Nat → Nat) (blocks : List Str) (blockToWords : WordMap)
    (allWords : List Str) (isIPv6 : Bool) : Except Halt (List Str) :=
  printRandomLoop fuel rand blockToWords allWords isIPv6 blocks 0 []

/-- The function `printRandom` of `main.go`: the line it prints. -/
def printRandom (fuel : Nat) (rand : Nat → Nat) (blocks : List Str) (blockToWords : WordMap)
    (allWords : List Str) (isIPv6 : Bool) : Except Halt Str :=
  match printRandomWords fuel rand blocks blockToWords allWords isIPv6 with
  | .error e => .error e
  | .ok result => .ok (stringsJoin result (if !isIPv6 then '.' else ':'))

/-- The loop of `reverseIP` over the blocks: the first block that is not valid, if any. -/
def firstInvalidBlock (intSize : Nat) (digitTable : Char → Bool) (isIPv6 : Bool) :
    List Str → Option Str
  | [] => none
  | block :: rest =>
    if !isValidBlock intSize digitTable block isIPv6 then some block
    else firstInvalidBlock intSize digitTable isIPv6 rest

/-- The validation at the head of `reverseIP` (lines 148 to 165): `.error` carries the error line
it prints, `.ok` the blocks passed on. -/
def reverseIPValidate (intSize : Nat) (digitTable : Char → Bool) (ipAddress : Str)
    (isIPv6 : Bool) : Except Str (List Str) :=
  let blocks := if !isIPv6 then stringsSplit ipAddress '.' else stringsSplit ipAddress ':'
  let expectedLength := if !isIPv6 then 4 else 8
  if blocks.length ≠ expectedLength then
    .error ("Error: Please provide a valid ".toList ++ ipType isIPv6 ++
      " address with exactly ".toList ++ fmtD expectedLength ++ " blocks.".toList)
  else
    match firstInvalidBlock intSize digitTable isIPv6 blocks with
    | some block =>
      .error ("Error: Block ".toList ++ block ++ " is not a valid ".toList ++ blockType isIPv6 ++
        " value.".toList)
    | none => .ok blocks

/-- What a run of `reverseIP` prints. -/
inductive ReverseOutput
  | errorLine (line : Str)
  | loadError (err : Str)
  | full (reports : List FullLine)
  | random (line : Str)
  deriving DecidableEq, Repr

/-- The function `reverseIP` of `main.go`. -/
def reverseIP (intSize : Nat) (digitTable : Char → Bool) (caseTable : Char → Char)
    (file : Except Str (List Str))
    (fuel : Nat) (rand : Nat → Nat) (ipAddress : Str) (isIPv6 : Bool) (full : Bool) :
    Except Halt ReverseOutput :=
  match reverseIPValidate intSize digitTable ipAddress isIPv6 with
  | .error line => .ok (ReverseOutput.errorLine line)
  | .ok blocks =>
    match loadWordMappings caseTable file isIPv6 with
    | .error err => .ok (ReverseOutput.loadError err)
    | .ok (blockToWords, allWords) =>
      if full then
        match printFull fuel blocks blockToWords allWords isIPv6 with
        | .error e => .error e
        | .ok reports => .ok (ReverseOutput.full reports)
      else
        match printRandom fuel rand blocks blockToWords allWords isIPv6 with
        | .error e => .error e
        | .ok line => .ok (ReverseOutput.random line)

/-- The bucket that the specification assigns to a key: the words of the list, in order and with
repetitions, whose block is the key; a key without such a word is absent. -/
def bucketOf (isIPv6 : Bool) (words : List Str) (key : Str) : Option (List Str) :=
  let bucket := words.filter (fun w => decide (getIPBlock w isIPv6 = key))
  if bucket = [] then none else some bucket

/-- The sign and the digits of a numeral: a leading `-` or `+` is split off. -/
def signSplit : Str → Bool × Str
  | [] => (false, [])
  | c :: cs => if c = '-' then (true, cs) else if c = '+' then (false, cs) else (false, c :: cs)

/-! ## Reading numerals back (used to state what a rendering denotes) -/

/-- The characters `0` to `9`. -/
def isAsciiDigit (c : Char) : Prop := 48 ≤ c.toNat ∧ c.toNat ≤ 57

/-- The characters `0` to `9` and `a` to `f`. -/
def isLowerHexChar (c : Char) : Prop :=
  (48 ≤ c.toNat ∧ c.toNat ≤ 57) ∨ (97 ≤ c.toNat ∧ c.toNat ≤ 102)

instance (c : Char) : Decidable (isAsciiDigit c) := by unfold isAsciiDigit; infer_instance

instance (c : Char) : Decidable (isLowerHexChar c) := by unfold isLowerHexChar; infer_instance

/-- The value of one hexadecimal digit character. -/
def hexDigitValue (c : Char) : Nat :=
  if c.toNat ≤ 57 then c.toNat - 48 else c.toNat - 87

/-- The number denoted by a string of decimal digits. -/
def decimalValue (s : Str) : Nat := s.foldl (fun acc c => acc * 10 + (c.toNat - 48)) 0

/-- The number denoted by a string of lowercase hexadecimal digits. -/
def hexValue (s : Str) : Nat := s.foldl (fun acc c => acc * 16 + hexDigitValue c) 0

/-- A base-10 integer that fits a signed integer of `intSize` bits, in the words of the
specification: an optional single sign `+` or `-`, then one or more ASCII decimal digits, the
value being at most `2^(intSize-1) - 1`, or at most `2^(intSize-1)` after a `-`. -/
def isDecimalInteger (intSize : Nat) (b : Str) : Prop :=
  ∃ sign digits : Str, b = sign ++ digits ∧ (sign = [] ∨ sign = ['+'] ∨ sign = ['-']) ∧
    digits ≠ [] ∧ (∀ c ∈ digits, isAsciiDigit c) ∧
    ((sign = ['-'] ∧ decimalValue digits ≤ 2 ^ (intSize - 1)) ∨
      (sign ≠ ['-'] ∧ decimalValue digits < 2 ^ (intSize - 1)))

/-- The multiply-by-33 form of the hash given in the specification. -/
def djb2Spec (word : Str) : Nat :=
  word.foldl (fun h c => (h * 33 + c.toNat) % 2 ^ 32) 5381

/-- The number of uppercase letters `A` to `Z` in a word. -/
def upperCount (w : Str) : Nat :=
  w.countP (fun c => decide ('A'.toNat ≤ c.toNat ∧ c.toNat ≤ 'Z'.toNat))

/-- What the last `k` decimal digits of `n`, appended as characters to a word, add to the hash:
the digit `d` is the character of code `48 + d`, and every later character multiplies by 33. -/
def digitSum : Nat → Nat → Nat
  | 0, _ => 0
  | k + 1, n => digitSum k (n / 10) * 33 + 48 + n % 10

/-- For each residue `r` below 256, a number `a` below 10000 whose four decimal digits
(leading zeros included) contribute `r` modulo 256 to the hash: `digitSum 4 a % 256 = r`. -/
def lowDigitsTable : List Nat :=
  [8897, 100, 20, 21, 22, 23, 24, 25, 26, 27, 28, 29, 183, 184, 185, 186, 187, 188, 189, 586,
   587, 588, 589, 986, 987, 988, 989, 3897, 3898, 3899, 5997, 5998, 5999, 1000, 110, 30, 31, 32,
   33, 34, 35, 36, 37, 38, 39, 193, 194, 195, 196, 197, 198, 199, 596, 597, 598, 599, 996, 997,
   998, 999, 3988, 3989, 6897, 6898, 6899, 8997, 200, 120, 40, 41, 42, 43, 44, 45, 46, 47, 48,
   49, 284, 285, 286, 287, 288, 289, 686, 687, 688, 689, 1896, 1897, 1898, 1899, 3997, 3998,
   3999, 6988, 6989, 9897, 1100, 210, 130, 50, 51, 52, 53, 54, 55, 56, 57, 58, 59, 294, 295, 296,
   297, 298, 299, 696, 697, 698, 699, 1987, 1988, 1989, 4897, 4898, 4899, 6997, 6998, 6999, 2000,
   300, 220, 140, 60, 61, 62, 63, 64, 65, 66, 67, 68, 69, 385, 386, 387, 388, 389, 786, 787, 788,
   789, 1996, 1997, 1998, 1999, 4988, 4989, 7897, 7898, 7899, 9997, 1200, 310, 230, 150, 70, 71,
   72, 73, 74, 75, 76, 77, 78, 79, 395, 396, 397, 398, 399, 796, 797, 798, 799, 2897, 2898, 2899,
   4997, 4998, 4999, 0, 1, 2, 3, 4, 5, 6, 7, 8, 9, 82, 83, 84, 85, 86, 87, 88, 89, 486, 487, 488,
   489, 886, 887, 888, 889, 2987, 2988, 2989, 5897, 5898, 5899, 7997, 10, 11, 12, 13, 14, 15, 16,
   17, 18, 19, 92, 93, 94, 95, 96, 97, 98, 99, 496, 497, 498, 499, 896, 897, 898, 899, 2997,
   2998, 2999, 5988, 5989]

/-- For each `q` below 256, a number `b` of six decimal digits whose digits, followed by four
more characters, contribute `256 * q` modulo 65536: `digitSum 6 b * 33 ^ 4 % 65536 = 256 * q`. -/
def highDigitsTable : List Nat :=
  [239693, 299219, 298562, 176279, 159584, 387509, 298643, 184379, 159665, 389048, 108896,
   192479, 159746, 389129, 108977, 266189, 159827, 397229, 388553, 194099, 159908, 485519,
   388634, 282389, 169466, 479039, 118697, 290489, 169547, 168890, 118778, 299930, 169628,
   168971, 118859, 372299, 169709, 583529, 126959, 380399, 177809, 338990, 128498, 389840,
   179348, 178691, 128579, 389921, 179429, 178772, 136679, 119984, 187529, 178853, 144779,
   399560, 189068, 178934, 138299, 399641, 189149, 188492, 146399, 209894, 197249, 188573,
   154499, 129785, 285539, 188654, 162599, 129866, 279059, 188735, 170699, 129947, 287159,
   188816, 324599, 219695, 295259, 196916, 332699, 139586, 383549, 198455, 340799, 139667,
   377069, 198536, 189860, 139748, 385169, 198617, 189941, 139829, 393269, 286907, 510899,
   147929, 481559, 288446, 199580, 149468, 475079, 288527, 199661, 149549, 148892, 106799,
   199742, 157649, 148973, 114899, 199823, 159188, 645179, 122999, 199904, 159269, 318992,
   298328, 289652, 167369, 158693, 298409, 289733, 175469, 158774, 388157, 289814, 183569,
   158855, 388238, 297914, 177089, 158936, 388319, 299453, 185189, 168494, 396419, 299534,
   193289, 168575, 478148, 109787, 281579, 168656, 159980, 109868, 275099, 168737, 486329,
   109949, 283199, 168818, 494429, 389525, 291299, 176918, 249890, 119588, 445199, 178457,
   169781, 119669, 453299, 178538, 169862, 127769, 461399, 178619, 169943, 135869, 615299,
   186719, 259691, 129389, 398750, 188258, 179582, 137489, 398831, 188339, 179663, 145589,
   128894, 196439, 179744, 153689, 128975, 278168, 179825, 161789, 488741, 198059, 179906,
   235499, 488822, 286349, 189464, 243599, 138695, 294449, 189545, 251699, 138776, 368159,
   189626, 405599, 138857, 296069, 189707, 413699, 138938, 384359, 197807, 421799, 148496,
   392459, 199346, 589109, 148577, 466169, 199427, 198770, 148658, 139982, 199508, 198851,
   148739, 482369, 105989, 198932, 156839, 490469, 289337, 288680, 158378, 229892, 289418,
   288761, 158459, 149783, 297518, 288842, 166559, 149864, 203999, 288923, 168098, 149945,
   299138, 298481, 168179]

/-! ## Numerals -/

theorem toDigitsCore_eq_digits (b : Nat) (hb : 1 < b) :
    ∀ (fuel n : Nat) (ds : List Char), 0 < n → n < fuel →
      Nat.toDigitsCore b fuel n ds = ((Nat.digits b n).reverse.map Nat.digitChar) ++ ds := by
  intro fuel
  induction fuel with
  | zero => intro n ds _ h; omega
  | succ fuel ih =>
    intro n ds hn hlt
    rw [Nat.digits_def' hb hn]
    simp only [Nat.toDigitsCore]
    by_cases h0 : n / b = 0
    · simp [h0]
    · have hlt2 : n / b < n := Nat.div_lt_self hn hb
      rw [if_neg h0, ih (n / b) _ (Nat.pos_of_ne_zero h0) (by omega)]
      simp

theorem toDigits_eq_digits (b : Nat) (hb : 1 < b) (n : Nat) (hn : 0 < n) :
    Nat.toDigits b n = (Nat.digits b n).reverse.map Nat.digitChar := by
  unfold Nat.toDigits
  rw [toDigitsCore_eq_digits b hb (n + 1) n [] hn (by omega)]
  simp

theorem digitChar_props : ∀ d < 16, isLowerHexChar (Nat.digitChar d) ∧
    hexDigitValue (Nat.digitChar d) = d ∧ (d < 10 → (Nat.digitChar d).toNat = 48 + d) ∧
    (Nat.digitChar d = '0' → d = 0) := by
  decide

/-- Reading back, in base `b`, the characters of a list of digits (least significant first). -/
theorem foldl_digitChar (b : Nat) (val : Char → Nat)
    (hval : ∀ d < b, val (Nat.digitChar d) = d) (ds : List Nat) (hds : ∀ d ∈ ds, d < b) :
    (ds.reverse.map Nat.digitChar).foldl (fun acc c => acc * b + val c) 0 = Nat.ofDigits b ds := by
  induction ds with
  | nil => simp
  | cons d ds ih =>
    have h1 : ∀ x ∈ ds, x < b := fun x hx => hds x (List.mem_cons_of_mem _ hx)
    simp only [List.reverse_cons, List.map_append, List.foldl_append, List.map_cons, List.map_nil,
      List.foldl_cons, List.foldl_nil, Nat.ofDigits_cons]
    rw [ih h1, hval d (hds d (List.mem_cons_self _ _))]
    ring

theorem decimalValue_fmtD (n : Nat) : decimalValue (fmtD n) = n := by
  rcases Nat.eq_zero_or_pos n with rfl | hn
  · decide
  · unfold decimalValue fmtD
    rw [toDigits_eq_digits 10 (by norm_num) n hn]
    rw [foldl_digitChar 10 (fun c => c.toNat - 48) _ _ (fun d hd => Nat.digits_lt_base (by norm_num) hd)]
    · exact Nat.ofDigits_digits 10 n
    · intro d hd
      have := (digitChar_props d (by omega)).2.2.1 hd
      simp only [this]; omega

theorem fmtD_digits (n : Nat) : ∀ c ∈ fmtD n, isAsciiDigit c := by
  rcases Nat.eq_zero_or_pos n with rfl | hn
  · decide
  · unfold fmtD
    rw [toDigits_eq_digits 10 (by norm_num) n hn]
    intro c hc
    simp only [List.mem_map, List.mem_reverse] at hc
    obtain ⟨d, hd, rfl⟩ := hc
    have hlt : d < 10 := Nat.digits_lt_base (by norm_num) hd
    have := (digitChar_props d (by omega)).2.2.1 hlt
    unfold isAsciiDigit
    omega

theorem fmtD_ne_nil (n : Nat) : fmtD n ≠ [] := by
  intro h
  rcases Nat.eq_zero_or_pos n with rfl | hn
  · revert h; decide
  · have h1 := decimalValue_fmtD n
    rw [h] at h1
    simp [decimalValue] at h1
    omega

theorem fmtD_no_leading_zero (n : Nat) : (fmtD n).head? ≠ some '0' ∨ fmtD n = ['0'] := by
  rcases Nat.eq_zero_or_pos n with rfl | hn
  · right; decide
  · left
    unfold fmtD
    rw [toDigits_eq_digits 10 (by norm_num) n hn]
    have hne : Nat.digits 10 n ≠ [] := by
      simpa [Nat.digits_eq_nil_iff_eq_zero] using (by omega : n ≠ 0)
    have hlast := Nat.getLast_digit_ne_zero 10 (by omega : n ≠ 0)
    rw [List.head?_map, List.head?_reverse,
      List.getLast?_eq_getLast _ hne]
    simp only [Option.map_some', ne_eq, Option.some.injEq]
    intro h
    have hlt : (Nat.digits 10 n).getLast hne < 10 :=
      Nat.digits_lt_base (by norm_num) (List.getLast_mem hne)
    exact hlast ((digitChar_props _ (by omega)).2.2.2 h)


theorem hexValue_replicate_zero (k : Nat) (s : Str) :
    hexValue (List.replicate k '0' ++ s) = hexValue s := by
  unfold hexValue
  rw [List.foldl_append]
  congr 1
  induction k with
  | zero => rfl
  | succ k ih => rw [List.replicate_succ, List.foldl_cons]; simpa [hexDigitValue] using ih

theorem toDigits16_props (n : Nat) :
    (∀ c ∈ Nat.toDigits 16 n, isLowerHexChar c) ∧ hexValue (Nat.toDigits 16 n) = n ∧
    1 ≤ (Nat.toDigits 16 n).length ∧ (n < 65536 → (Nat.toDigits 16 n).length ≤ 4) := by
  rcases Nat.eq_zero_or_pos n with rfl | hn
  · decide
  · rw [toDigits_eq_digits 16 (by norm_num) n hn]
    refine ⟨?_, ?_, ?_, ?_⟩
    · intro c hc
      simp only [List.mem_map, List.mem_reverse] at hc
      obtain ⟨d, hd, rfl⟩ := hc
      exact (digitChar_props d (Nat.digits_lt_base (by norm_num) hd)).1
    · unfold hexValue
      rw [foldl_digitChar 16 hexDigitValue (fun d hd => (digitChar_props d hd).2.1) _
        (fun d hd => Nat.digits_lt_base (by norm_num) hd)]
      exact Nat.ofDigits_digits 16 n
    · have hne : Nat.digits 16 n ≠ [] := by
        simpa [Nat.digits_eq_nil_iff_eq_zero] using (by omega : n ≠ 0)
      simpa using List.length_pos.2 hne
    · intro hlt
      have hlog : Nat.log 16 n < 4 := Nat.log_lt_of_lt_pow (by omega) (by norm_num; omega)
      simp only [List.length_map, List.length_reverse, Nat.digits_len 16 n (by norm_num) (by omega)]
      omega

theorem fmt04x_props (n : Nat) (hn : n < 65536) :
    (fmt04x n).length = 4 ∧ (∀ c ∈ fmt04x n, isLowerHexChar c) ∧ hexValue (fmt04x n) = n := by
  obtain ⟨h1, h2, h3, h4⟩ := toDigits16_props n
  have h4 := h4 hn
  unfold fmt04x List.leftpad
  refine ⟨?_, ?_, ?_⟩
  · simp only [List.length_append, List.length_replicate]; omega
  · intro c hc
    rcases List.mem_append.1 hc with hc | hc
    · rw [List.eq_of_mem_replicate hc]; decide
    · exact h1 c hc
  · rw [hexValue_replicate_zero]; exact h2

/-! ## The hash -/

theorem djb2Step_eq (h : Nat) (c : Char) :
    djb2Step h c = (h * 33 + c.toNat) % 2 ^ 32 := by
  unfold djb2Step add32 shl32
  omega

theorem djb2Step_lt (h : Nat) (c : Char) : djb2Step h c < 2 ^ 32 := by
  unfold djb2Step add32
  exact Nat.mod_lt _ (by norm_num)

theorem foldl_djb2Step_lt (w : Str) (h : Nat) (hh : h < 2 ^ 32) :
    w.foldl djb2Step h < 2 ^ 32 := by
  induction w generalizing h with
  | nil => simpa using hh
  | cons c cs ih => exact ih _ (djb2Step_lt h c)

theorem djb2Hash_lt (w : Str) : djb2Hash w < 2 ^ 32 :=
  foldl_djb2Step_lt w 5381 (by norm_num)

theorem foldl_djb2Step_eq (w : Str) (h : Nat) :
    w.foldl djb2Step h = w.foldl (fun h c => (h * 33 + c.toNat) % 2 ^ 32) h := by
  induction w generalizing h with
  | nil => rfl
  | cons c cs ih =>
    simp only [List.foldl_cons]
    rw [ih, djb2Step_eq h c]

/-- C1: the shift-and-add hash on `uint32` is the left fold `h ↦ (h * 33 + c) mod 2^32` from the
seed 5381 over the code points of the word; the empty word hashes to 5381 and `apple` to
253337143. -/
theorem djb2Hash_eq_fold :
    (∀ word : Str, djb2Hash word = djb2Spec word) ∧
    djb2Hash "".toList = 5381 ∧ djb2Hash "apple".toList = 253337143 := by
  refine ⟨fun word => foldl_djb2Step_eq word 5381, by decide, by decide⟩

/-! ## The block codec -/

/-- C2: for every word, the IPv6 block is a string of exactly 4 characters, each in `0-9a-f`,
whose hexadecimal value is the hash modulo 65536 (the value 10 is rendered `000a`), and the IPv4
block is the decimal numeral, without padding or leading zero, of the hash modulo 256, a value
between 0 and 255. -/
theorem getIPBlock_rendering (w : Str) :
    ((getIPBlock w true).length = 4 ∧ (∀ c ∈ getIPBlock w true, isLowerHexChar c) ∧
      hexValue (getIPBlock w true) = djb2Hash w % 65536) ∧
    ((∀ c ∈ getIPBlock w false, isAsciiDigit c) ∧ getIPBlock w false ≠ [] ∧
      ((getIPBlock w false).head? ≠ some '0' ∨ getIPBlock w false = ['0']) ∧
      decimalValue (getIPBlock w false) = djb2Hash w % 256 ∧ djb2Hash w % 256 ≤ 255) ∧
    fmt04x 10 = "000a".toList := by
  refine ⟨?_, ⟨?_, ?_, ?_, ?_, ?_⟩, by decide⟩
  · simpa [getIPBlock] using fmt04x_props (djb2Hash w % 65536) (Nat.mod_lt _ (by norm_num))
  · simpa [getIPBlock] using fmtD_digits (djb2Hash w % 256)
  · simpa [getIPBlock] using fmtD_ne_nil (djb2Hash w % 256)
  · simpa [getIPBlock] using fmtD_no_leading_zero (djb2Hash w % 256)
  · simpa [getIPBlock] using decimalValue_fmtD (djb2Hash w % 256)
  · have := Nat.mod_lt (djb2Hash w) (by norm_num : 0 < 256)
    omega

/-! ## Splitting and joining -/

theorem stringsSplit_ne_nil (s : Str) (sep : Char) : stringsSplit s sep ≠ [] := by
  induction s with
  | nil => simp [stringsSplit]
  | cons c cs ih =>
    unfold stringsSplit
    split_ifs
    · simp
    · split <;> simp

theorem stringsSplit_cons_eq (cs : Str) (sep : Char) :
    stringsSplit (sep :: cs) sep = [] :: stringsSplit cs sep := by
  simp [stringsSplit]

theorem stringsSplit_cons_ne (c : Char) (cs : Str) (sep : Char) (p : Str) (ps : List Str)
    (hc : c ≠ sep) (h : stringsSplit cs sep = p :: ps) :
    stringsSplit (c :: cs) sep = (c :: p) :: ps := by
  simp [stringsSplit, hc, h]

theorem stringsSplit_of_not_mem (b : Str) (sep : Char) (h : sep ∉ b) :
    stringsSplit b sep = [b] := by
  induction b with
  | nil => rfl
  | cons c cs ih =>
    have hc : c ≠ sep := fun e => h (by simp [e])
    have hcs : sep ∉ cs := fun e => h (List.mem_cons_of_mem _ e)
    exact stringsSplit_cons_ne c cs sep cs [] hc (ih hcs)

theorem stringsSplit_append (b t : Str) (sep : Char) (h : sep ∉ b) :
    stringsSplit (b ++ sep :: t) sep = b :: stringsSplit t sep := by
  induction b with
  | nil => exact stringsSplit_cons_eq t sep
  | cons c cs ih =>
    have hc : c ≠ sep := fun e => h (by simp [e])
    have hcs : sep ∉ cs := fun e => h (List.mem_cons_of_mem _ e)
    rw [List.cons_append]
    exact stringsSplit_cons_ne c _ sep cs _ hc (ih hcs)

theorem stringsJoin_cons_cons (b b2 : Str) (bs : List Str) (sep : Char) :
    stringsJoin (b :: b2 :: bs) sep = b ++ sep :: stringsJoin (b2 :: bs) sep := by
  simp [stringsJoin, List.intercalate, List.intersperse]

theorem stringsJoin_singleton (b : Str) (sep : Char) : stringsJoin [b] sep = b := by
  simp [stringsJoin, List.intercalate, List.intersperse]

/-- Splitting a joined list of pieces gives the pieces back, when no piece holds the separator. -/
theorem stringsSplit_stringsJoin (bs : List Str) (sep : Char) (hne : bs ≠ [])
    (h : ∀ b ∈ bs, sep ∉ b) : stringsSplit (stringsJoin bs sep) sep = bs := by
  induction bs with
  | nil => exact absurd rfl hne
  | cons b bs ih =>
    cases bs with
    | nil =>
      rw [stringsJoin_singleton]
      exact stringsSplit_of_not_mem b sep (h b (List.mem_cons_self _ _))
    | cons b2 bs =>
      rw [stringsJoin_cons_cons, stringsSplit_append _ _ _ (h b (List.mem_cons_self _ _)),
        ih (by simp) (fun x hx => h x (List.mem_cons_of_mem _ hx))]

/-- Joining the pieces of a split gives the string back. -/
theorem stringsJoin_stringsSplit (s : Str) (sep : Char) :
    stringsJoin (stringsSplit s sep) sep = s := by
  induction s with
  | nil => simp [stringsSplit, stringsJoin_singleton]
  | cons c cs ih =>
    obtain ⟨p, ps, hps⟩ := List.exists_cons_of_ne_nil (stringsSplit_ne_nil cs sep)
    by_cases hc : c = sep
    · subst hc
      rw [stringsSplit_cons_eq, hps, stringsJoin_cons_cons, ← hps, ih]
      rfl
    · rw [stringsSplit_cons_ne c cs sep p ps hc hps]
      rw [hps] at ih
      cases ps with
      | nil =>
        rw [stringsJoin_singleton] at ih ⊢
        rw [ih]
      | cons p2 ps =>
        rw [stringsJoin_cons_cons] at ih ⊢
        rw [List.cons_append, ih]

theorem separator_not_mem_getIPBlock (w : Str) (isIPv6 : Bool) :
    (if !isIPv6 then '.' else ':') ∉ getIPBlock w isIPv6 := by
  cases isIPv6 with
  | true =>
    intro hmem
    have := (fmt04x_props (djb2Hash w % 65536) (Nat.mod_lt _ (by norm_num))).2.1 _ hmem
    revert this
    decide
  | false =>
    intro hmem
    have := fmtD_digits (djb2Hash w % 256) _ hmem
    revert this
    decide

/-! ## The forward direction -/

theorem generateIP_of_length (words : List Str) (isIPv6 : Bool)
    (hlen : words.length = if isIPv6 then 8 else 4) :
    generateIP words isIPv6 =
      .ok (stringsJoin (words.map (fun w => getIPBlock w isIPv6)) (if !isIPv6 then '.' else ':')) := by
  cases isIPv6 <;> simp_all [generateIP]

theorem stringsSplit_blocks (words : List Str) (isIPv6 : Bool) (hne : words ≠ []) :
    stringsSplit (stringsJoin (words.map (fun w => getIPBlock w isIPv6))
      (if !isIPv6 then '.' else ':')) (if !isIPv6 then '.' else ':') =
      words.map (fun w => getIPBlock w isIPv6) := by
  apply stringsSplit_stringsJoin
  · simpa using hne
  · intro b hb
    obtain ⟨w, _, rfl⟩ := List.mem_map.1 hb
    exact separator_not_mem_getIPBlock w isIPv6

/-- C3: for a word sequence of the block count of the family (4 for IPv4, 8 for IPv6),
`generateIP` prints the blocks of the words joined by the separator of the family, in input
order; splitting the printed address on the separator gives exactly as many pieces as words, and
the piece at each position is the block of the word at that position. -/
theorem generateIP_blocks (words : List Str) (isIPv6 : Bool)
    (hlen : words.length = if isIPv6 then 8 else 4) :
    ∃ address : Str,
      generateIP words isIPv6 = .ok address ∧
      address = stringsJoin (words.map (fun w => getIPBlock w isIPv6))
        (if isIPv6 then ':' else '.') ∧
      (stringsSplit address (if isIPv6 then ':' else '.')).length = words.length ∧
      stringsSplit address (if isIPv6 then ':' else '.') =
        words.map (fun w => getIPBlock w isIPv6) := by
  have hne : words ≠ [] := by
    intro h
    rw [h] at hlen
    cases isIPv6 <;> simp at hlen
  have h1 := generateIP_of_length words isIPv6 hlen
  have h2 := stringsSplit_blocks words isIPv6 hne
  have hsep : (if !isIPv6 then '.' else ':') = (if isIPv6 then ':' else '.') := by
    cases isIPv6 <;> rfl
  rw [hsep] at h1 h2
  exact ⟨_, h1, rfl, by rw [h2, List.length_map], h2⟩

/-- The four words `aaa`, `bbb`, `ccc`, `ddd` give the four pieces `104`, `203`, `46`, `145`. -/
theorem generateIP_blocks_witness :
    generateIP ["aaa".toList, "bbb".toList, "ccc".toList, "ddd".toList] false =
      .ok "104.203.46.145".toList ∧
    ∃ address : Str,
      generateIP ["aaa".toList, "bbb".toList, "ccc".toList, "ddd".toList] false = .ok address ∧
      address = stringsJoin (["aaa".toList, "bbb".toList, "ccc".toList, "ddd".toList].map
        (fun w => getIPBlock w false)) (if false then ':' else '.') ∧
      (stringsSplit address (if false then ':' else '.')).length =
        ["aaa".toList, "bbb".toList, "ccc".toList, "ddd".toList].length ∧
      stringsSplit address (if false then ':' else '.') =
        ["aaa".toList, "bbb".toList, "ccc".toList, "ddd".toList].map
          (fun w => getIPBlock w false) :=
  ⟨by decide,
    generateIP_blocks ["aaa".toList, "bbb".toList, "ccc".toList, "ddd".toList] false (by decide)⟩

/-! ## The dictionary index -/

theorem bucketOf_getD (isIPv6 : Bool) (words : List Str) (key : Str) :
    (bucketOf isIPv6 words key).getD [] =
      words.filter (fun w => decide (getIPBlock w isIPv6 = key)) := by
  unfold bucketOf
  by_cases h : words.filter (fun w => decide (getIPBlock w isIPv6 = key)) = []
  · simp [h]
  · simp [h]

theorem appendWord_bucketOf (isIPv6 : Bool) (words : List Str) (word : Str) :
    appendWord (bucketOf isIPv6 words) (getIPBlock word isIPv6) word =
      bucketOf isIPv6 (words ++ [word]) := by
  funext k
  unfold appendWord
  by_cases hk : k = getIPBlock word isIPv6
  · rw [if_pos hk, bucketOf_getD]
    subst hk
    simp [bucketOf, List.filter_append]
  · rw [if_neg hk]
    have hk2 : ¬ getIPBlock word isIPv6 = k := fun e => hk e.symm
    simp [bucketOf, List.filter_append, hk2]

/-- The loading loop keeps the map equal to the buckets of the words loaded so far. -/
theorem loadLoop_bucketOf (caseTable : Char → Char) (isIPv6 : Bool) (lines allWords : List Str) :
    loadLoop caseTable isIPv6 lines (bucketOf isIPv6 allWords, allWords) =
      (bucketOf isIPv6 (allWords ++ lines.map (stringsToLower caseTable)),
        allWords ++ lines.map (stringsToLower caseTable)) := by
  induction lines generalizing allWords with
  | nil => simp [loadLoop]
  | cons text rest ih =>
    simp only [loadLoop]
    rw [appendWord_bucketOf, ih]
    simp

theorem emptyWordMap_eq (isIPv6 : Bool) : emptyWordMap = bucketOf isIPv6 [] := by
  funext k
  simp [emptyWordMap, bucketOf]

theorem loadLoop_eq (caseTable : Char → Char) (isIPv6 : Bool) (lines : List Str) :
    loadLoop caseTable isIPv6 lines (emptyWordMap, []) =
      (bucketOf isIPv6 (lines.map (stringsToLower caseTable)),
        lines.map (stringsToLower caseTable)) := by
  rw [emptyWordMap_eq isIPv6, loadLoop_bucketOf]
  simp

theorem map_stringsToLower_of_fixed (caseTable : Char → Char) (L : List Str)
    (hL : ∀ w ∈ L, stringsToLower caseTable w = w) : L.map (stringsToLower caseTable) = L := by
  induction L with
  | nil => rfl
  | cons w ws ih =>
    rw [List.map_cons, hL w (List.mem_cons_self _ _),
      ih (fun x hx => hL x (List.mem_cons_of_mem _ hx))]

theorem bucketOf_eq_some (isIPv6 : Bool) (words bucket : List Str) (key : Str)
    (h : bucketOf isIPv6 words key = some bucket) :
    bucket = words.filter (fun w => decide (getIPBlock w isIPv6 = key)) ∧ bucket ≠ [] := by
  unfold bucketOf at h
  by_cases hb : words.filter (fun w => decide (getIPBlock w isIPv6 = key)) = []
  · simp [hb] at h
  · simp only [hb, if_false, Option.some.injEq] at h
    exact ⟨h.symm, h ▸ hb⟩

theorem bucketOf_eq_none (isIPv6 : Bool) (words : List Str) (key : Str) :
    bucketOf isIPv6 words key = none ↔ ∀ w ∈ words, getIPBlock w isIPv6 ≠ key := by
  unfold bucketOf
  by_cases hb : words.filter (fun w => decide (getIPBlock w isIPv6 = key)) = []
  · simp only [hb, if_true, true_iff]
    intro w hw e
    have : w ∈ words.filter (fun w => decide (getIPBlock w isIPv6 = key)) :=
      List.mem_filter.2 ⟨hw, by simpa using e⟩
    rw [hb] at this
    exact absurd this (List.not_mem_nil _)
  · simp only [hb, if_false]
    constructor
    · intro h
      exact absurd h (by simp)
    · intro hall
      exfalso
      apply hb
      apply List.filter_eq_nil_iff.2
      intro w hw
      simpa using hall w hw

/-- C8: for a list `L` of lowercase words, the index built by the loading loop stores a word
only under the key that is its block; the bucket of a key is exactly the sub-sequence of `L`, in
load order and with repetitions, of the words whose block is the key (a key is absent exactly
when no word has it as block); the flat list is `L` itself; and the empty list gives the empty
index, without error. -/
theorem loadLoop_index_invariant (caseTable : Char → Char) (isIPv6 : Bool) (L : List Str)
    (hL : ∀ w ∈ L, stringsToLower caseTable w = w) :
    (∀ key bucket word, (loadLoop caseTable isIPv6 L (emptyWordMap, [])).1 key = some bucket →
      word ∈ bucket → getIPBlock word isIPv6 = key) ∧
    (∀ key, ((loadLoop caseTable isIPv6 L (emptyWordMap, [])).1 key).getD [] =
        L.filter (fun w => decide (getIPBlock w isIPv6 = key)) ∧
      ((loadLoop caseTable isIPv6 L (emptyWordMap, [])).1 key = none ↔
        ∀ w ∈ L, getIPBlock w isIPv6 ≠ key)) ∧
    (loadLoop caseTable isIPv6 L (emptyWordMap, [])).2 = L ∧
    loadWordMappings caseTable (.ok []) isIPv6 = .ok (emptyWordMap, []) := by
  rw [loadLoop_eq, map_stringsToLower_of_fixed caseTable L hL]
  refine ⟨?_, ?_, rfl, rfl⟩
  · intro key bucket word hb hw
    obtain ⟨rfl, _⟩ := bucketOf_eq_some isIPv6 L bucket key hb
    simpa using (List.mem_filter.1 hw).2
  · intro key
    exact ⟨bucketOf_getD isIPv6 L key, bucketOf_eq_none isIPv6 L key⟩

/-- The list `apple`, `pear`, `apple` under IPv4: the loading loop keeps order and repetition. -/
theorem loadLoop_index_invariant_witness :
    (loadLoop id false ["apple".toList, "pear".toList, "apple".toList] (emptyWordMap, [])).1
        "55".toList = some ["apple".toList, "apple".toList] ∧
    (loadLoop id false ["apple".toList, "pear".toList, "apple".toList] (emptyWordMap, [])).2 =
      ["apple".toList, "pear".toList, "apple".toList] ∧
    (loadLoop id false ["apple".toList, "pear".toList, "apple".toList] (emptyWordMap, [])).2 =
      ["apple".toList, "pear".toList, "apple".toList] :=
  ⟨by decide, by decide,
    (loadLoop_index_invariant id false ["apple".toList, "pear".toList, "apple".toList]
      (by decide)).2.2.1⟩

/-! ## Parsing decimal numerals (`strconv.Atoi`) -/

theorem foldl_decimal_shift (s : Str) (a : Nat) :
    s.foldl (fun acc c => acc * 10 + (c.toNat - 48)) a =
      a * 10 ^ s.length + s.foldl (fun acc c => acc * 10 + (c.toNat - 48)) 0 := by
  induction s generalizing a with
  | nil => simp
  | cons c cs ih =>
    simp only [List.foldl_cons, List.length_cons]
    rw [ih (a * 10 + (c.toNat - 48)), ih (0 * 10 + (c.toNat - 48))]
    ring

theorem foldl_decimal_ge (s : Str) (a : Nat) :
    a ≤ s.foldl (fun acc c => acc * 10 + (c.toNat - 48)) a := by
  rw [foldl_decimal_shift]
  have : 1 ≤ 10 ^ s.length := Nat.one_le_pow _ _ (by norm_num)
  nlinarith

theorem decimalValue_lt_pow (s : Str) (h : ∀ c ∈ s, isAsciiDigit c) :
    decimalValue s < 10 ^ s.length := by
  unfold decimalValue
  induction s using List.reverseRecOn with
  | nil => simp
  | append_singleton cs c ih =>
    have hc : isAsciiDigit c := h c (by simp)
    have ih := ih (fun x hx => h x (by simp [hx]))
    unfold isAsciiDigit at hc
    simp only [List.foldl_append, List.foldl_cons, List.foldl_nil, List.length_append,
      List.length_singleton, pow_succ]
    omega

theorem atoiFastLoop_ok (s : Str) (n : Nat) (h : ∀ c ∈ s, isAsciiDigit c) :
    atoiFastLoop n s = .ok (s.foldl (fun acc c => acc * 10 + (c.toNat - 48)) n) := by
  induction s generalizing n with
  | nil => rfl
  | cons c cs ih =>
    have hc : isAsciiDigit c := h c (List.mem_cons_self _ _)
    unfold isAsciiDigit at hc
    unfold atoiFastLoop
    rw [if_pos (by simpa using hc), ih _ (fun x hx => h x (List.mem_cons_of_mem _ hx))]
    rfl

theorem atoiFastLoop_error (s : Str) (n : Nat) (h : ¬ ∀ c ∈ s, isAsciiDigit c) :
    atoiFastLoop n s = .error NumError.malformed := by
  induction s generalizing n with
  | nil => exact absurd (fun c hc => absurd hc (List.not_mem_nil c)) h
  | cons c cs ih =>
    unfold atoiFastLoop
    by_cases hc : isAsciiDigit c
    · have hc2 := hc
      unfold isAsciiDigit at hc2
      rw [if_pos (by simpa using hc2)]
      apply ih
      intro hall
      apply h
      intro x hx
      rcases List.mem_cons.1 hx with rfl | hx
      · exact hc
      · exact hall x hx
    · unfold isAsciiDigit at hc
      rw [if_neg (by simpa using hc)]

/-- The digit loop of `ParseUint` returns the value when every character is a digit and the
value is at most `maxVal`, and an error otherwise (with `maxVal` in case of a range error). -/
theorem parseUintLoop_spec (maxVal : Nat) (hmax : maxVal < 18446744073709551616) (s : Str) :
    ∀ n, n ≤ maxVal →
    (((∀ c ∈ s, isAsciiDigit c) ∧
        s.foldl (fun acc c => acc * 10 + (c.toNat - 48)) n ≤ maxVal) →
      parseUintLoop maxVal n s = (s.foldl (fun acc c => acc * 10 + (c.toNat - 48)) n, none)) ∧
    (¬ ((∀ c ∈ s, isAsciiDigit c) ∧
        s.foldl (fun acc c => acc * 10 + (c.toNat - 48)) n ≤ maxVal) →
      (parseUintLoop maxVal n s = (0, some NumError.malformed) ∨
        parseUintLoop maxVal n s = (maxVal, some NumError.outOfRange))) := by
  induction s with
  | nil =>
    intro n hn
    simp [parseUintLoop, hn]
  | cons c cs ih =>
    intro n hn
    have hge := foldl_decimal_ge cs (n * 10 + (c.toNat - 48))
    by_cases hc : isAsciiDigit c
    · have hall : (∀ x ∈ c :: cs, isAsciiDigit x) ↔ ∀ x ∈ cs, isAsciiDigit x := by
        constructor
        · exact fun h x hx => h x (List.mem_cons_of_mem _ hx)
        · intro h x hx
          rcases List.mem_cons.1 hx with rfl | hx
          · exact hc
          · exact h x hx
      have hc2 := hc
      unfold isAsciiDigit at hc2
      rw [hall]
      simp only [List.foldl_cons]
      unfold parseUintLoop
      rw [if_pos (by simpa using hc2)]
      simp only [Nat.reducePow, Nat.reduceSub, Nat.reduceDiv, Nat.reduceAdd, ge_iff_le,
        Char.reduceToNat]
      by_cases hcut : 1844674407370955162 ≤ n
      · rw [if_pos hcut]
        constructor
        · intro h
          omega
        · intro _
          exact Or.inr rfl
      · rw [if_neg hcut]
        by_cases hov : (n * 10 + (c.toNat - 48)) % 18446744073709551616 < n * 10 ∨
            (n * 10 + (c.toNat - 48)) % 18446744073709551616 > maxVal
        · rw [if_pos hov]
          constructor
          · intro h
            omega
          · intro _
            exact Or.inr rfl
        · rw [if_neg hov]
          have hmod : (n * 10 + (c.toNat - 48)) % 18446744073709551616 =
              n * 10 + (c.toNat - 48) := by omega
          rw [hmod]
          exact ih (n * 10 + (c.toNat - 48)) (by omega)
    · have hall : ¬ ∀ x ∈ c :: cs, isAsciiDigit x := fun h => hc (h c (List.mem_cons_self _ _))
      unfold isAsciiDigit at hc
      constructor
      · intro h
        exact absurd h.1 hall
      · intro _
        left
        unfold parseUintLoop
        rw [if_neg (by simpa using hc)]

theorem len_cons (c : Char) (cs : Str) : len (c :: cs) = c.utf8Size + len cs := by
  simp [len]

theorem length_le_len (s : Str) : s.length ≤ len s := by
  induction s with
  | nil => simp [len]
  | cons c cs ih =>
    rw [len_cons, List.length_cons]
    have := Char.utf8Size_pos c
    omega

theorem len_pos_of_ne_nil (s : Str) (h : s ≠ []) : 0 < len s := by
  have := length_le_len s
  have := List.length_pos.2 h
  omega

/-- Whether the digits `s1` after the sign `neg` make a numeral that fits `intSize` bits. -/
theorem atoiFast_ok_iff (neg : Bool) (s1 : Str) :
    (∃ v, atoiFast neg s1 = .ok v) ↔ ∀ c ∈ s1, isAsciiDigit c := by
  by_cases h : ∀ c ∈ s1, isAsciiDigit c
  · simp only [atoiFast, atoiFastLoop_ok s1 0 h]
    exact ⟨fun _ => h, fun _ => ⟨_, rfl⟩⟩
  · simp only [atoiFast, atoiFastLoop_error s1 0 h]
    exact ⟨fun ⟨v, hv⟩ => Except.noConfusion hv, fun h2 => absurd h2 h⟩

theorem parseIntUnsigned_ok_iff (intSize : Nat) (hsize : intSize = 32 ∨ intSize = 64)
    (neg : Bool) (s1 : Str) :
    (∃ v, parseIntUnsigned intSize neg s1 = .ok v) ↔
      s1 ≠ [] ∧ (∀ c ∈ s1, isAsciiDigit c) ∧
        ((neg = true ∧ decimalValue s1 ≤ 2 ^ (intSize - 1)) ∨
          (neg = false ∧ decimalValue s1 < 2 ^ (intSize - 1))) := by
  by_cases hnil : s1 = []
  · subst hnil
    simp [parseIntUnsigned, parseUint]
  · have hmax : 2 ^ intSize - 1 < 18446744073709551616 := by
      rcases hsize with rfl | rfl <;> norm_num
    have hspec := parseUintLoop_spec (2 ^ intSize - 1) hmax s1 0 (Nat.zero_le _)
    have hpu : parseUint intSize s1 = parseUintLoop (2 ^ intSize - 1) 0 s1 := by
      simp [parseUint, hnil]
    unfold parseIntUnsigned
    rw [hpu]
    unfold decimalValue
    by_cases hcond : (∀ c ∈ s1, isAsciiDigit c) ∧
        s1.foldl (fun acc c => acc * 10 + (c.toNat - 48)) 0 ≤ 2 ^ intSize - 1
    · rw [hspec.1 hcond]
      rcases hsize with rfl | rfl <;> cases neg <;>
        simp [hnil, hcond.1]
      all_goals
        have hd := hcond.1
        split_ifs with hC
        · constructor
          · rintro ⟨v, hv⟩
            exact absurd hv (by simp)
          · rintro ⟨_, hb⟩
            omega
        · exact ⟨fun _ => ⟨hd, by omega⟩, fun _ => ⟨_, rfl⟩⟩
    · have hno : ¬ ((∀ c ∈ s1, isAsciiDigit c) ∧
          ((neg = true ∧ s1.foldl (fun acc c => acc * 10 + (c.toNat - 48)) 0 ≤
              2 ^ (intSize - 1)) ∨
            (neg = false ∧ s1.foldl (fun acc c => acc * 10 + (c.toNat - 48)) 0 <
              2 ^ (intSize - 1)))) := by
        rintro ⟨h1, h2⟩
        apply hcond
        refine ⟨h1, ?_⟩
        rcases hsize with rfl | rfl <;> norm_num at h2 ⊢ <;> omega
      rcases hspec.2 hcond with h | h
      · rw [h]
        constructor
        · rintro ⟨v, hv⟩
          exact Except.noConfusion hv
        · rintro ⟨_, h1, h2⟩
          exact absurd ⟨h1, h2⟩ hno
      · rw [h]
        have : ¬ (s1 ≠ [] ∧ (∀ c ∈ s1, isAsciiDigit c) ∧
          ((neg = true ∧ s1.foldl (fun acc c => acc * 10 + (c.toNat - 48)) 0 ≤
              2 ^ (intSize - 1)) ∨
            (neg = false ∧ s1.foldl (fun acc c => acc * 10 + (c.toNat - 48)) 0 <
              2 ^ (intSize - 1)))) := fun h => hno h.2
        simp only [this, iff_false]
        rcases hsize with rfl | rfl <;> cases neg <;> simp

theorem isValidNumber_eq_true_iff (intSize : Nat) (b : Str) :
    isValidNumber intSize b = true ↔ ∃ v, atoi intSize b = .ok v := by
  unfold isValidNumber
  cases atoi intSize b <;> simp

theorem decimalValue_lt_of_length_le (s : Str) (k : Nat) (h : ∀ c ∈ s, isAsciiDigit c)
    (hk : s.length ≤ k) : decimalValue s < 10 ^ k :=
  lt_of_lt_of_le (decimalValue_lt_pow s h) (Nat.pow_le_pow_right (by norm_num) hk)

/-- The fast path of `Atoi` is taken only for inputs so short that the value fits. -/
theorem fast_path_bound (intSize : Nat) (neg : Bool) (s1 : Str) (k : Nat)
    (hfast : (intSize = 32 ∧ k < 10) ∨ (intSize = 64 ∧ k < 19)) (hlen : s1.length ≤ k)
    (h : ∀ c ∈ s1, isAsciiDigit c) :
    (neg = true ∧ decimalValue s1 ≤ 2 ^ (intSize - 1)) ∨
      (neg = false ∧ decimalValue s1 < 2 ^ (intSize - 1)) := by
  have hlt : decimalValue s1 < 2 ^ (intSize - 1) := by
    rcases hfast with ⟨rfl, hk⟩ | ⟨rfl, hk⟩
    · have := decimalValue_lt_of_length_le s1 9 h (by omega)
      norm_num at this ⊢
      omega
    · have := decimalValue_lt_of_length_le s1 18 h (by omega)
      norm_num at this ⊢
      omega
  cases neg
  · exact Or.inr ⟨rfl, hlt⟩
  · exact Or.inl ⟨rfl, le_of_lt hlt⟩

/-- The outcome of `isValidNumber` in terms of the sign and the digits of the input. -/
theorem isValidNumber_iff_signSplit (intSize : Nat) (hsize : intSize = 32 ∨ intSize = 64)
    (b : Str) :
    isValidNumber intSize b = true ↔
      (signSplit b).2 ≠ [] ∧ (∀ c ∈ (signSplit b).2, isAsciiDigit c) ∧
        (((signSplit b).1 = true ∧ decimalValue (signSplit b).2 ≤ 2 ^ (intSize - 1)) ∨
          ((signSplit b).1 = false ∧ decimalValue (signSplit b).2 < 2 ^ (intSize - 1))) := by
  rw [isValidNumber_eq_true_iff]
  cases b with
  | nil => simp [atoi, len, parseInt, signSplit]
  | cons c cs =>
    have hlenb : len (c :: cs) = c.utf8Size + len cs := len_cons c cs
    have hpos := Char.utf8Size_pos c
    have hcs := length_le_len cs
    by_cases hfast : (intSize = 32 ∧ 0 < len (c :: cs) ∧ len (c :: cs) < 10) ∨
        (intSize = 64 ∧ 0 < len (c :: cs) ∧ len (c :: cs) < 19)
    · have hatoi : atoi intSize (c :: cs) =
          if c = '-' ∨ c = '+' then
            if len cs < 1 then .error NumError.malformed else atoiFast (decide (c = '-')) cs
          else atoiFast false (c :: cs) := by
        simp only [atoi]
        rw [if_pos hfast]
      rw [hatoi]
      by_cases hm : c = '-'
      · have hs : signSplit (c :: cs) = (true, cs) := by simp [signSplit, hm]
        rw [hs, if_pos (Or.inl hm)]
        by_cases hnil : cs = []
        · subst hnil
          simp [len]
        · have := len_pos_of_ne_nil cs hnil
          rw [if_neg (by omega), atoiFast_ok_iff]
          constructor
          · intro h
            exact ⟨hnil, h, fast_path_bound intSize true cs (len (c :: cs) - 1)
              (by omega) (by omega) h⟩
          · exact fun h => h.2.1
      · by_cases hp : c = '+'
        · have hs : signSplit (c :: cs) = (false, cs) := by simp [signSplit, hp]
          rw [hs, if_pos (Or.inr hp)]
          by_cases hnil : cs = []
          · subst hnil
            simp [len]
          · have := len_pos_of_ne_nil cs hnil
            rw [if_neg (by omega), atoiFast_ok_iff]
            constructor
            · intro h
              exact ⟨hnil, h, fast_path_bound intSize false cs (len (c :: cs) - 1)
                (by omega) (by omega) h⟩
            · exact fun h => h.2.1
        · have hs : signSplit (c :: cs) = (false, c :: cs) := by simp [signSplit, hm, hp]
          rw [hs, if_neg (by simp [hm, hp]), atoiFast_ok_iff]
          constructor
          · intro h
            exact ⟨by simp, h, fast_path_bound intSize false (c :: cs) (len (c :: cs))
              (by omega) (by rw [List.length_cons]; omega) h⟩
          · exact fun h => h.2.1
    · have hatoi : atoi intSize (c :: cs) = parseInt intSize (c :: cs) := by
        simp only [atoi]
        rw [if_neg hfast]
      rw [hatoi]
      by_cases hm : c = '-'
      · have hs : signSplit (c :: cs) = (true, cs) := by simp [signSplit, hm]
        have hp : parseInt intSize (c :: cs) = parseIntUnsigned intSize true cs := by
          simp [parseInt, hm]
        rw [hs, hp]
        exact parseIntUnsigned_ok_iff intSize hsize true cs
      · by_cases hp : c = '+'
        · have hs : signSplit (c :: cs) = (false, cs) := by simp [signSplit, hp]
          have hp : parseInt intSize (c :: cs) = parseIntUnsigned intSize false cs := by
            simp [parseInt, hp]
          rw [hs, hp]
          exact parseIntUnsigned_ok_iff intSize hsize false cs
        · have hs : signSplit (c :: cs) = (false, c :: cs) := by simp [signSplit, hm, hp]
          have hp : parseInt intSize (c :: cs) = parseIntUnsigned intSize false (c :: cs) := by
            simp [parseInt, hm, hp]
          rw [hs, hp]
          exact parseIntUnsigned_ok_iff intSize hsize false (c :: cs)

theorem isDecimalInteger_iff_signSplit (intSize : Nat) (b : Str) :
    isDecimalInteger intSize b ↔
      (signSplit b).2 ≠ [] ∧ (∀ c ∈ (signSplit b).2, isAsciiDigit c) ∧
        (((signSplit b).1 = true ∧ decimalValue (signSplit b).2 ≤ 2 ^ (intSize - 1)) ∨
          ((signSplit b).1 = false ∧ decimalValue (signSplit b).2 < 2 ^ (intSize - 1))) := by
  constructor
  · rintro ⟨sign, digits, rfl, hsign, hne, hdig, hbound⟩
    rcases hsign with rfl | rfl | rfl
    · obtain ⟨c, cs, rfl⟩ := List.exists_cons_of_ne_nil hne
      have hc : isAsciiDigit c := hdig c (List.mem_cons_self _ _)
      have hm : c ≠ '-' := by rintro rfl; revert hc; decide
      have hp : c ≠ '+' := by rintro rfl; revert hc; decide
      have hs : signSplit ([] ++ c :: cs) = (false, c :: cs) := by simp [signSplit, hm, hp]
      rw [hs]
      refine ⟨hne, hdig, Or.inr ⟨rfl, ?_⟩⟩
      rcases hbound with ⟨h, _⟩ | ⟨_, h⟩
      · exact absurd h (by simp)
      · exact h
    · have hs : signSplit (['+'] ++ digits) = (false, digits) := by simp [signSplit]
      rw [hs]
      refine ⟨hne, hdig, Or.inr ⟨rfl, ?_⟩⟩
      rcases hbound with ⟨h, _⟩ | ⟨_, h⟩
      · exact absurd h (by simp)
      · exact h
    · have hs : signSplit (['-'] ++ digits) = (true, digits) := by simp [signSplit]
      rw [hs]
      refine ⟨hne, hdig, Or.inl ⟨rfl, ?_⟩⟩
      rcases hbound with ⟨_, h⟩ | ⟨h, _⟩
      · exact h
      · exact absurd rfl h
  · cases b with
    | nil => simp [signSplit]
    | cons c cs =>
      by_cases hm : c = '-'
      · have hs : signSplit (c :: cs) = (true, cs) := by simp [signSplit, hm]
        rw [hs]
        rintro ⟨hne, hdig, hbound⟩
        refine ⟨['-'], cs, by simp [hm], Or.inr (Or.inr rfl), hne, hdig, Or.inl ⟨rfl, ?_⟩⟩
        rcases hbound with ⟨_, h⟩ | ⟨h, _⟩
        · exact h
        · exact absurd h (by simp)
      · by_cases hp : c = '+'
        · have hs : signSplit (c :: cs) = (false, cs) := by simp [signSplit, hp]
          rw [hs]
          rintro ⟨hne, hdig, hbound⟩
          refine ⟨['+'], cs, by simp [hp], Or.inr (Or.inl rfl), hne, hdig,
            Or.inr ⟨by simp, ?_⟩⟩
          rcases hbound with ⟨h, _⟩ | ⟨_, h⟩
          · exact absurd h (by simp)
          · exact h
        · have hs : signSplit (c :: cs) = (false, c :: cs) := by simp [signSplit, hm, hp]
          rw [hs]
          rintro ⟨hne, hdig, hbound⟩
          refine ⟨[], c :: cs, by simp, Or.inl rfl, hne, hdig, Or.inr ⟨by simp, ?_⟩⟩
          rcases hbound with ⟨h, _⟩ | ⟨_, h⟩
          · exact absurd h (by simp)
          · exact h

/-- C10: `isValidNumber` accepts exactly the base-10 integers: an optional single sign `+` or
`-`, then one or more ASCII decimal digits, with a value that fits the signed integer of the
platform (32 or 64 bits).  No bound 0..255 is applied: `999` is accepted and the address
`1.2.3.999` passes the IPv4 validation. -/
theorem isValidNumber_iff_decimal_integer (intSize : Nat) (digitTable : Char → Bool)
    (hsize : intSize = 32 ∨ intSize = 64) :
    (∀ b : Str, isValidNumber intSize b = true ↔ isDecimalInteger intSize b) ∧
    isValidNumber intSize "999".toList = true ∧
    reverseIPValidate intSize digitTable "1.2.3.999".toList false =
      .ok ["1".toList, "2".toList, "3".toList, "999".toList] := by
  refine ⟨fun b => ?_, ?_, ?_⟩
  · rw [isValidNumber_iff_signSplit intSize hsize b, isDecimalInteger_iff_signSplit]
  · rcases hsize with rfl | rfl <;> decide
  · rcases hsize with rfl | rfl <;> rfl

/-- On a 64-bit platform: `-12` and `999` are accepted, `12a` and the empty string are not. -/
theorem isValidNumber_iff_decimal_integer_witness :
    (isValidNumber 64 "-12".toList = true ∧ isValidNumber 64 "12a".toList = false ∧
      isValidNumber 64 [] = false) ∧
    ((∀ b : Str, isValidNumber 64 b = true ↔ isDecimalInteger 64 b) ∧
      isValidNumber 64 "999".toList = true ∧
      reverseIPValidate 64 unicodeDigit15 "1.2.3.999".toList false =
        .ok ["1".toList, "2".toList, "3".toList, "999".toList]) :=
  ⟨by decide, isValidNumber_iff_decimal_integer 64 unicodeDigit15 (Or.inr rfl)⟩

/-! ## The validator -/

theorem utf8Size_of_ascii (c : Char) (h : c.toNat ≤ 127) : c.utf8Size = 1 := by
  have h1 : c.val ≤ UInt32.ofNatCore 0x7F (by decide) := h
  unfold Char.utf8Size
  simp only [h1, if_true]

theorem len_of_ascii (s : Str) (h : ∀ c ∈ s, c.toNat ≤ 127) : len s = s.length := by
  induction s with
  | nil => simp [len]
  | cons c cs ih =>
    rw [len_cons, utf8Size_of_ascii c (h c (List.mem_cons_self _ _)),
      ih (fun x hx => h x (List.mem_cons_of_mem _ hx)), List.length_cons]
    omega

theorem isValidHexLoop_iff (digitTable : Char → Bool) (b : Str) :
    isValidHexLoop digitTable b = true ↔
      ∀ c ∈ b, unicodeIsDigit digitTable c = true ∨ (97 ≤ c.toNat ∧ c.toNat ≤ 102) := by
  induction b with
  | nil => simp [isValidHexLoop]
  | cons c cs ih =>
    unfold isValidHexLoop
    by_cases hc : unicodeIsDigit digitTable c = true ∨ (97 ≤ c.toNat ∧ c.toNat ≤ 102)
    · have hcond : (!unicodeIsDigit digitTable c && (decide (c.toNat < 'a'.toNat) ||
          decide (c.toNat > 'f'.toNat))) = false := by
        rcases hc with hc | hc
        · simp [hc]
        · simp only [Char.reduceToNat, Bool.and_eq_false_imp, Bool.not_eq_eq_eq_not,
            Bool.not_true, Bool.or_eq_false_iff, decide_eq_false_iff_not, not_lt, gt_iff_lt]
          intro _
          omega
      rw [hcond]
      simp only [Bool.false_eq_true, if_false, ih, List.mem_cons, forall_eq_or_imp, hc, true_and]
    · have hcond : (!unicodeIsDigit digitTable c && (decide (c.toNat < 'a'.toNat) ||
          decide (c.toNat > 'f'.toNat))) = true := by
        simp only [not_or, Bool.not_eq_true, not_and, not_le] at hc
        simp only [hc.1, Bool.not_false, Char.reduceToNat, Bool.true_and, Bool.or_eq_true,
          decide_eq_true_eq, gt_iff_lt]
        have := hc.2
        omega
      rw [hcond]
      simp only [if_true, Bool.false_eq_true, List.mem_cons, forall_eq_or_imp, hc, false_and]

/-- What `isValidHex` accepts: at most 4 bytes, every character a decimal digit of some
script or a letter `a` to `f`. -/
theorem isValidHex_iff (digitTable : Char → Bool) (b : Str) :
    isValidHex digitTable b = true ↔
      len b ≤ 4 ∧ ∀ c ∈ b, unicodeIsDigit digitTable c = true ∨ (97 ≤ c.toNat ∧ c.toNat ≤ 102) := by
  unfold isValidHex
  by_cases h : len b > 4
  · simp only [h, if_true, Bool.false_eq_true, false_iff, not_and]
    intro h2
    omega
  · rw [if_neg h, isValidHexLoop_iff]
    exact ⟨fun h2 => ⟨by omega, h2⟩, fun h2 => h2.2⟩

theorem unicodeIsDigit_of_ascii_digit (digitTable : Char → Bool) (c : Char)
    (h : isAsciiDigit c) :
    unicodeIsDigit digitTable c = true := by
  unfold isAsciiDigit at h
  unfold unicodeIsDigit
  rw [if_pos (by omega)]
  simpa using h

theorem unicodeIsDigit_ascii_iff (digitTable : Char → Bool) (c : Char) (h : c.toNat ≤ 127) :
    unicodeIsDigit digitTable c = true ↔ isAsciiDigit c := by
  unfold isAsciiDigit unicodeIsDigit
  rw [if_pos (by omega)]
  simp

/-- On strings of ASCII characters `isValidHex` accepts exactly the strings of at most 4
characters among `0-9a-f`. -/
theorem isValidHex_ascii_iff (digitTable : Char → Bool) (b : Str)
    (hb : ∀ c ∈ b, c.toNat ≤ 127) :
    isValidHex digitTable b = true ↔ b.length ≤ 4 ∧ ∀ c ∈ b, isLowerHexChar c := by
  rw [isValidHex_iff, len_of_ascii b hb]
  constructor
  · rintro ⟨h1, h2⟩
    refine ⟨h1, fun c hc => ?_⟩
    rcases h2 c hc with h | h
    · exact Or.inl ((unicodeIsDigit_ascii_iff digitTable c (hb c hc)).1 h)
    · exact Or.inr h
  · rintro ⟨h1, h2⟩
    refine ⟨h1, fun c hc => ?_⟩
    rcases h2 c hc with h | h
    · exact Or.inl (unicodeIsDigit_of_ascii_digit digitTable c h)
    · exact Or.inr h

theorem isValidHex_fmt04x (digitTable : Char → Bool) (n : Nat) (hn : n < 65536) :
    isValidHex digitTable (fmt04x n) = true := by
  obtain ⟨h1, h2, _⟩ := fmt04x_props n hn
  have hascii : ∀ c ∈ fmt04x n, c.toNat ≤ 127 := by
    intro c hc
    have := h2 c hc
    unfold isLowerHexChar at this
    omega
  rw [isValidHex_ascii_iff digitTable _ hascii]
  exact ⟨by omega, h2⟩

theorem isValidNumber_fmtD (intSize : Nat) (hsize : intSize = 32 ∨ intSize = 64) (n : Nat)
    (hn : n < 256) : isValidNumber intSize (fmtD n) = true := by
  rw [isValidNumber_iff_signSplit intSize hsize, ← isDecimalInteger_iff_signSplit]
  refine ⟨[], fmtD n, rfl, Or.inl rfl, fmtD_ne_nil n, fmtD_digits n, Or.inr ⟨by simp, ?_⟩⟩
  rw [decimalValue_fmtD]
  rcases hsize with rfl | rfl <;> norm_num <;> omega

/-- Every block that `getIPBlock` produces is accepted by `isValidBlock`. -/
theorem isValidBlock_block (intSize : Nat) (digitTable : Char → Bool)
    (hsize : intSize = 32 ∨ intSize = 64) (w : Str)
    (isIPv6 : Bool) : isValidBlock intSize digitTable (getIPBlock w isIPv6) isIPv6 = true := by
  cases isIPv6 with
  | true =>
    simp only [isValidBlock, getIPBlock, if_true]
    exact isValidHex_fmt04x digitTable _ (Nat.mod_lt _ (by norm_num))
  | false =>
    simp only [isValidBlock, getIPBlock, Bool.false_eq_true, if_false]
    exact isValidNumber_fmtD intSize hsize _ (Nat.mod_lt _ (by norm_num))

theorem isValidHex_arabic_indic (digitTable : Char → Bool) :
    isValidHex digitTable [Char.ofNat 0x663] = digitTable (Char.ofNat 0x663) := by
  have hlen : ¬ len [Char.ofNat 0x663] > 4 := by decide
  have hbig : ¬ (Char.ofNat 0x663).toNat ≤ 0xFF := by decide
  have hf : decide ((Char.ofNat 0x663).toNat > 'f'.toNat) = true := by decide
  simp only [isValidHex, if_neg hlen, isValidHexLoop, unicodeIsDigit, if_neg hbig, hf,
    Bool.or_true, Bool.and_true]
  cases digitTable (Char.ofNat 0x663) <;> rfl

/-- C9: `isValidHex` is meant to accept a block exactly when it has at most 4 characters, each
an ASCII decimal digit or a letter `a` to `f`; the code tests digits with `unicode.IsDigit` and
so accepts the one-character block U+0663 (ARABIC-INDIC DIGIT THREE, 2 bytes), which is not
among `0-9a-f`: the block is accepted whenever the digit table of the toolchain holds U+0663,
as the table of Unicode 15.0.0 does. -/
theorem isValidHex_accepts_arabic_indic_digit :
    (∀ digitTable : Char → Bool,
      isValidHex digitTable [Char.ofNat 0x663] = digitTable (Char.ofNat 0x663)) ∧
    unicodeDigit15 (Char.ofNat 0x663) = true ∧
    isValidHex unicodeDigit15 [Char.ofNat 0x663] = true ∧ [Char.ofNat 0x663].length ≤ 4 ∧
      ¬ (∀ c ∈ [Char.ofNat 0x663], isLowerHexChar c) :=
  ⟨isValidHex_arabic_indic, by decide, by decide, by decide, by decide⟩

/-! ## The fallback generator -/

theorem fallbackInner_some (block : Str) (isIPv6 : Bool) (i : Nat) (ws : List Str) (r : Str)
    (h : fallbackInner block isIPv6 i ws = some r) :
    ∃ w, w ∈ ws ∧ r = w ++ fmtD i ∧ getIPBlock r isIPv6 = block := by
  induction ws with
  | nil => simp [fallbackInner] at h
  | cons w ws ih =>
    unfold fallbackInner at h
    by_cases hw : getIPBlock (w ++ fmtD i) isIPv6 = block
    · simp only [hw, if_true, Option.some.injEq] at h
      subst h
      exact ⟨w, List.mem_cons_self _ _, rfl, hw⟩
    · simp only [hw, if_false] at h
      obtain ⟨w2, hw2, h2⟩ := ih h
      exact ⟨w2, List.mem_cons_of_mem _ hw2, h2⟩

theorem fallbackFrom_some (allWords : List Str) (block : Str) (isIPv6 : Bool) (fuel : Nat) :
    ∀ (i0 : Nat) (r : Str), fallbackFrom allWords block isIPv6 fuel i0 = some r →
      ∃ i w, i0 ≤ i ∧ i < i0 + fuel ∧ w ∈ allWords ∧ r = w ++ fmtD i ∧
        getIPBlock r isIPv6 = block := by
  induction fuel with
  | zero => intro i0 r h; simp [fallbackFrom] at h
  | succ fuel ih =>
    intro i0 r h
    unfold fallbackFrom at h
    cases hin : fallbackInner block isIPv6 i0 allWords with
    | some x =>
      rw [hin] at h
      simp only [Option.some.injEq] at h
      subst h
      obtain ⟨w, hw, h2⟩ := fallbackInner_some block isIPv6 i0 allWords x hin
      exact ⟨i0, w, le_refl _, by omega, hw, h2⟩
    | none =>
      rw [hin] at h
      obtain ⟨i, w, h1, h2, h3⟩ := ih (i0 + 1) r h
      exact ⟨i, w, by omega, by omega, h3⟩

theorem fallbackInner_none (block : Str) (isIPv6 : Bool) (i : Nat) (ws : List Str)
    (h : ∀ x, getIPBlock x isIPv6 ≠ block) : fallbackInner block isIPv6 i ws = none := by
  induction ws with
  | nil => rfl
  | cons w ws ih =>
    unfold fallbackInner
    simp only [h (w ++ fmtD i), if_false]
    exact ih

theorem fallbackFrom_none (allWords : List Str) (block : Str) (isIPv6 : Bool)
    (h : ∀ x, getIPBlock x isIPv6 ≠ block) (fuel : Nat) :
    ∀ i0, fallbackFrom allWords block isIPv6 fuel i0 = none := by
  induction fuel with
  | zero => intro i0; rfl
  | succ fuel ih =>
    intro i0
    unfold fallbackFrom
    rw [fallbackInner_none block isIPv6 i0 allWords h]
    exact ih (i0 + 1)

/-- C6: whenever `generateFallbackWord` returns a word, the block of that word is the target
block, and the word is a word of the list followed by the decimal numeral of a counter. -/
theorem generateFallbackWord_correct (fuel : Nat) (allWords : List Str) (block : Str)
    (isIPv6 : Bool) (r : Str)
    (h : generateFallbackWord fuel allWords block isIPv6 = some r) :
    getIPBlock r isIPv6 = block ∧ ∃ (i : Nat) (w : Str), w ∈ allWords ∧ r = w ++ fmtD i := by
  obtain ⟨i, w, _, _, hw, hr, hb⟩ := fallbackFrom_some allWords block isIPv6 fuel 0 r h
  exact ⟨hb, i, w, hw, hr⟩

/-- With the list `a`, `b` and the IPv4 target `247` the generator returns `a1`. -/
theorem generateFallbackWord_correct_witness :
    generateFallbackWord 5 ["a".toList, "b".toList] "247".toList false = some "a1".toList ∧
    (getIPBlock "a1".toList false = "247".toList ∧
      ∃ (i : Nat) (w : Str), w ∈ ["a".toList, "b".toList] ∧ "a1".toList = w ++ fmtD i) :=
  ⟨by decide,
    generateFallbackWord_correct 5 ["a".toList, "b".toList] "247".toList false "a1".toList
      (by decide)⟩

theorem getIPBlock_ne_999 (x : Str) : getIPBlock x false ≠ "999".toList := by
  intro h
  have h1 : decimalValue (getIPBlock x false) = djb2Hash x % 256 := by
    simpa [getIPBlock] using decimalValue_fmtD (djb2Hash x % 256)
  rw [h] at h1
  have h2 : decimalValue "999".toList = 999 := by decide
  have := Nat.mod_lt (djb2Hash x) (by norm_num : 0 < 256)
  omega

theorem getIPBlock_ne_short (x : Str) : getIPBlock x true ≠ "1".toList := by
  intro h
  have h1 : (getIPBlock x true).length = 4 := by
    simpa [getIPBlock] using (fmt04x_props (djb2Hash x % 65536) (Nat.mod_lt _ (by norm_num))).1
  rw [h] at h1
  revert h1
  decide

/-- C7: the block `999` is accepted by the IPv4 validator and the block `1` by the IPv6
validator, yet for every word list and every bound on the counter the fallback generator finds
no word for them: no candidate ever has such a block, so the search of the source never
returns. -/
theorem generateFallbackWord_misses_accepted_block :
    ((∀ digitTable : Char → Bool, isValidBlock 64 digitTable "999".toList false = true) ∧
      ∀ (fuel : Nat) (allWords : List Str),
        generateFallbackWord fuel allWords "999".toList false = none) ∧
    ((∀ digitTable : Char → Bool, isValidBlock 64 digitTable "1".toList true = true) ∧
      ∀ (fuel : Nat) (allWords : List Str),
        generateFallbackWord fuel allWords "1".toList true = none) := by
  refine ⟨⟨fun digitTable => ?_, fun fuel allWords => ?_⟩,
    ⟨fun digitTable => ?_, fun fuel allWords => ?_⟩⟩
  · show isValidNumber 64 "999".toList = true
    decide
  · exact fallbackFrom_none allWords _ false getIPBlock_ne_999 fuel 0
  · show isValidHex digitTable "1".toList = true
    exact (isValidHex_ascii_iff digitTable _ (by decide)).2 (by decide)
  · exact fallbackFrom_none allWords _ true getIPBlock_ne_short fuel 0

/-! ## The reverse direction -/

theorem firstInvalidBlock_none (intSize : Nat) (digitTable : Char → Bool)
    (isIPv6 : Bool) (bs : List Str)
    (h : ∀ b ∈ bs, isValidBlock intSize digitTable b isIPv6 = true) :
    firstInvalidBlock intSize digitTable isIPv6 bs = none := by
  induction bs with
  | nil => rfl
  | cons b bs ih =>
    unfold firstInvalidBlock
    simp only [h b (List.mem_cons_self _ _), Bool.not_true, Bool.false_eq_true, if_false]
    exact ih (fun x hx => h x (List.mem_cons_of_mem _ hx))

/-- What a successful validation says about the address and the blocks. -/
theorem reverseIPValidate_ok (intSize : Nat) (digitTable : Char → Bool)
    (ipAddress : Str) (isIPv6 : Bool)
    (blocks : List Str) (h : reverseIPValidate intSize digitTable ipAddress isIPv6 = .ok blocks) :
    blocks = stringsSplit ipAddress (if !isIPv6 then '.' else ':') ∧
      blocks.length = if isIPv6 then 8 else 4 := by
  unfold reverseIPValidate at h
  cases isIPv6 with
  | true =>
    simp only [Bool.not_true, Bool.false_eq_true, if_false] at h ⊢
    by_cases hl : (stringsSplit ipAddress ':').length ≠ 8
    · rw [if_pos hl] at h
      exact absurd h (by simp)
    · rw [if_neg hl] at h
      cases hf : firstInvalidBlock intSize digitTable true (stringsSplit ipAddress ':') with
      | some b => rw [hf] at h; exact absurd h (by simp)
      | none =>
        rw [hf] at h
        simp only [Except.ok.injEq] at h
        subst h
        exact ⟨rfl, by simpa using hl⟩
  | false =>
    simp only [Bool.not_false, if_true, Bool.false_eq_true, if_false] at h ⊢
    by_cases hl : (stringsSplit ipAddress '.').length ≠ 4
    · rw [if_pos hl] at h
      exact absurd h (by simp)
    · rw [if_neg hl] at h
      cases hf : firstInvalidBlock intSize digitTable false (stringsSplit ipAddress '.') with
      | some b => rw [hf] at h; exact absurd h (by simp)
      | none =>
        rw [hf] at h
        simp only [Except.ok.injEq] at h
        subst h
        exact ⟨rfl, by simpa using hl⟩

/-- The address that `generateIP` prints passes the validation of `reverseIP`. -/
theorem reverseIPValidate_generated (intSize : Nat) (digitTable : Char → Bool)
    (hsize : intSize = 32 ∨ intSize = 64)
    (words : List Str) (isIPv6 : Bool) (hlen : words.length = if isIPv6 then 8 else 4) :
    reverseIPValidate intSize digitTable
        (stringsJoin (words.map (fun w => getIPBlock w isIPv6)) (if !isIPv6 then '.' else ':'))
        isIPv6 = .ok (words.map (fun w => getIPBlock w isIPv6)) := by
  have hne : words ≠ [] := by
    intro h
    rw [h] at hlen
    cases isIPv6 <;> simp at hlen
  have hsplit := stringsSplit_blocks words isIPv6 hne
  have hvalid : firstInvalidBlock intSize digitTable isIPv6
      (words.map (fun w => getIPBlock w isIPv6)) =
      none := by
    apply firstInvalidBlock_none
    intro b hb
    obtain ⟨w, _, rfl⟩ := List.mem_map.1 hb
    exact isValidBlock_block intSize digitTable hsize w isIPv6
  unfold reverseIPValidate
  cases isIPv6 with
  | true =>
    simp only [Bool.not_true, Bool.false_eq_true, if_false] at hsplit hlen ⊢
    rw [hsplit, List.length_map, if_neg (by simp [hlen]), hvalid]
  | false =>
    simp only [Bool.not_false, if_true, Bool.false_eq_true, if_false] at hsplit hlen ⊢
    rw [hsplit, List.length_map, if_neg (by simp [hlen]), hvalid]

theorem printRandomLoop_blocks (fuel : Nat) (rand : Nat → Nat) (m : WordMap)
    (allWords : List Str) (isIPv6 : Bool)
    (hm : ∀ key bucket word, m key = some bucket → word ∈ bucket →
      getIPBlock word isIPv6 = key) (blocks : List Str) :
    ∀ (calls : Nat) (result out : List Str),
      printRandomLoop fuel rand m allWords isIPv6 blocks calls result = .ok out →
      out.map (fun w => getIPBlock w isIPv6) =
        result.map (fun w => getIPBlock w isIPv6) ++ blocks := by
  induction blocks with
  | nil =>
    intro calls result out h
    simp only [printRandomLoop, Except.ok.injEq] at h
    simp [h]
  | cons block rest ih =>
    intro calls result out h
    unfold printRandomLoop at h
    cases hb : m block with
    | none =>
      rw [hb] at h
      cases hf : generateFallbackWord fuel allWords block isIPv6 with
      | none => rw [hf] at h; exact absurd h (by simp)
      | some fw =>
        rw [hf] at h
        have hfw : getIPBlock fw isIPv6 = block :=
          (fallbackFrom_some allWords block isIPv6 fuel 0 fw hf).choose_spec.choose_spec.2.2.2.2
        rw [ih _ _ _ h]
        simp [hfw]
    | some words =>
      rw [hb] at h
      by_cases hl : words.length = 0
      · simp only [hl, if_true] at h
        exact absurd h (by simp)
      · simp only [hl, if_false] at h
        cases hg : words.get? (rand calls % words.length) with
        | none => rw [hg] at h; exact absurd h (by simp)
        | some rw =>
          rw [hg] at h
          have hrw : getIPBlock rw isIPv6 = block := hm block words rw hb (List.get?_mem hg)
          rw [ih _ _ _ h]
          simp [hrw]

theorem bucketOf_sound (isIPv6 : Bool) (words : List Str) :
    ∀ key bucket word, bucketOf isIPv6 words key = some bucket → word ∈ bucket →
      getIPBlock word isIPv6 = key := by
  intro key bucket word hb hw
  obtain ⟨rfl, _⟩ := bucketOf_eq_some isIPv6 words bucket key hb
  simpa using (List.mem_filter.1 hw).2

/-- C5: when the blocks of a validated address are resolved in Random mode against the index
of any word list, whatever the random draws, every word produced has the block at its position
as its block, and `generateIP` on the produced words prints the address again. -/
theorem random_mode_round_trip (intSize : Nat) (digitTable : Char → Bool)
    (caseTable : Char → Char) (lines : List Str)
    (isIPv6 : Bool) (ipAddress : Str) (blocks : List Str) (fuel : Nat) (rand : Nat → Nat)
    (words : List Str)
    (hvalid : reverseIPValidate intSize digitTable ipAddress isIPv6 = .ok blocks)
    (hrun : printRandomWords fuel rand blocks
      (loadLoop caseTable isIPv6 lines (emptyWordMap, [])).1
      (loadLoop caseTable isIPv6 lines (emptyWordMap, [])).2 isIPv6 = .ok words) :
    words.map (fun w => getIPBlock w isIPv6) = blocks ∧
      generateIP words isIPv6 = .ok ipAddress := by
  obtain ⟨hsplit, hlen⟩ := reverseIPValidate_ok intSize digitTable ipAddress isIPv6 blocks hvalid
  rw [loadLoop_eq] at hrun
  have hmap := printRandomLoop_blocks fuel rand _ _ isIPv6
    (bucketOf_sound isIPv6 (lines.map (stringsToLower caseTable))) blocks 0 [] words hrun
  simp only [List.map_nil, List.nil_append] at hmap
  refine ⟨hmap, ?_⟩
  have hwl : words.length = if isIPv6 then 8 else 4 := by
    rw [← hlen, ← hmap, List.length_map]
  rw [generateIP_of_length words isIPv6 hwl, hmap, hsplit, stringsJoin_stringsSplit]

/-- The address `6.247.6.141` against the list `a`, `pear`: the block `247` has no bucket and
gets the fallback word `a1`. -/
theorem random_mode_round_trip_witness :
    printRandomWords 5 (fun _ => 0)
      ["6".toList, "247".toList, "6".toList, "141".toList]
      (loadLoop id false ["a".toList, "pear".toList] (emptyWordMap, [])).1
      (loadLoop id false ["a".toList, "pear".toList] (emptyWordMap, [])).2 false =
      .ok ["a".toList, "a1".toList, "a".toList, "pear".toList] ∧
    (["a".toList, "a1".toList, "a".toList, "pear".toList].map (fun w => getIPBlock w false) =
        ["6".toList, "247".toList, "6".toList, "141".toList] ∧
      generateIP ["a".toList, "a1".toList, "a".toList, "pear".toList] false =
        .ok "6.247.6.141".toList) :=
  ⟨by decide,
    random_mode_round_trip 64 unicodeDigit15 id ["a".toList, "pear".toList] false
      "6.247.6.141".toList
      ["6".toList, "247".toList, "6".toList, "141".toList] 5 (fun _ => 0)
      ["a".toList, "a1".toList, "a".toList, "pear".toList] (by decide) (by decide)⟩

/-- When every block has a bucket, `printFull` reports the bucket of each block, numbered from
the starting position, and never calls the fallback generator. -/
theorem printFullLoop_found (fuel : Nat) (m : WordMap) (allWords : List Str) (isIPv6 : Bool)
    (blocks : List Str) :
    ∀ i0, (∀ b ∈ blocks, ∃ bucket, m b = some bucket) →
      ∃ reports, printFullLoop fuel m allWords isIPv6 blocks i0 = .ok reports ∧
        reports.length = blocks.length ∧
        ∀ j b, blocks[j]? = some b →
          ∃ bucket, m b = some bucket ∧
            reports[j]? = some (FullLine.found (i0 + j + 1) b bucket) := by
  induction blocks with
  | nil =>
    intro i0 _
    exact ⟨[], rfl, rfl, fun j b h => by simp at h⟩
  | cons block rest ih =>
    intro i0 h
    obtain ⟨bucket, hb⟩ := h block (List.mem_cons_self _ _)
    obtain ⟨reports, hr, hlen, hpos⟩ := ih (i0 + 1) (fun b hb => h b (List.mem_cons_of_mem _ hb))
    refine ⟨FullLine.found (i0 + 1) block bucket :: reports, ?_, ?_, ?_⟩
    · unfold printFullLoop
      rw [hb, hr]
    · simp [hlen]
    · intro j b hj
      cases j with
      | zero =>
        simp only [List.getElem?_cons_zero, Option.some.injEq] at hj
        subst hj
        exact ⟨bucket, hb, by simp⟩
      | succ j =>
        simp only [List.getElem?_cons_succ] at hj
        obtain ⟨bk, hbk, hrep⟩ := hpos j b hj
        refine ⟨bk, hbk, ?_⟩
        simp only [List.getElem?_cons_succ, hrep, Option.some.injEq, FullLine.found.injEq,
          and_true]
        omega

theorem mem_bucketOf (isIPv6 : Bool) (words : List Str) (w : Str) (hw : w ∈ words) :
    ∃ bucket, bucketOf isIPv6 words (getIPBlock w isIPv6) = some bucket ∧ w ∈ bucket := by
  have hmem : w ∈ words.filter (fun x => decide (getIPBlock x isIPv6 = getIPBlock w isIPv6)) :=
    List.mem_filter.2 ⟨hw, by simp⟩
  have hne : words.filter (fun x => decide (getIPBlock x isIPv6 = getIPBlock w isIPv6)) ≠ [] :=
    List.ne_nil_of_mem hmem
  exact ⟨_, by simp [bucketOf, hne], hmem⟩

/-- C4, as the claim states it: the words `Apple`, `b`, `c`, `d` all occur in the word list
`Apple`, `b`, `c`, `d`; their address `23.7.8.9` passes the validation; but the loading loop
stores `apple`, whose block is 55, so the block `23` has no bucket and `printFull` reports the
fallback word `b0` for it, not a list that contains `Apple`. -/
theorem full_mode_round_trip_counterexample :
    (∀ w ∈ ["Apple".toList, "b".toList, "c".toList, "d".toList],
      w ∈ ["Apple".toList, "b".toList, "c".toList, "d".toList]) ∧
    generateIP ["Apple".toList, "b".toList, "c".toList, "d".toList] false =
      .ok "23.7.8.9".toList ∧
    reverseIPValidate 64 unicodeDigit15 "23.7.8.9".toList false =
      .ok ["23".toList, "7".toList, "8".toList, "9".toList] ∧
    (loadLoop id false ["Apple".toList, "b".toList, "c".toList, "d".toList]
      (emptyWordMap, [])).2 = ["apple".toList, "b".toList, "c".toList, "d".toList] ∧
    (loadLoop id false ["Apple".toList, "b".toList, "c".toList, "d".toList]
      (emptyWordMap, [])).1 "23".toList = none ∧
    printFull 1 ["23".toList, "7".toList, "8".toList, "9".toList]
      (loadLoop id false ["Apple".toList, "b".toList, "c".toList, "d".toList]
        (emptyWordMap, [])).1
      (loadLoop id false ["Apple".toList, "b".toList, "c".toList, "d".toList]
        (emptyWordMap, [])).2 false =
      .ok [FullLine.fallback 1 "23".toList "b0".toList,
        FullLine.found 2 "7".toList ["b".toList], FullLine.found 3 "8".toList ["c".toList],
        FullLine.found 4 "9".toList ["d".toList]] := by
  decide

/-- C4, amended: let the words of a sequence of the block count of the family occur in the
list loaded from the word list `D`, that is among the lines of `D` as `loadWordMappings`
lowercases them (`allWords`), and let the index be built from `D`.  Then the address that
`generateIP` prints passes the validation of `reverseIP` with the blocks of the words, and
`printFull` completes and reports, at each position, a bucket of the index that contains the
word at that position. -/
theorem full_mode_round_trip (intSize : Nat) (digitTable : Char → Bool)
    (hsize : intSize = 32 ∨ intSize = 64)
    (caseTable : Char → Char) (isIPv6 : Bool) (D words : List Str) (fuel : Nat)
    (hlen : words.length = if isIPv6 then 8 else 4)
    (hD : ∀ w ∈ words, w ∈ (loadLoop caseTable isIPv6 D (emptyWordMap, [])).2) :
    ∃ (address : Str) (blocks : List Str) (reports : List FullLine),
      generateIP words isIPv6 = .ok address ∧
      reverseIPValidate intSize digitTable address isIPv6 = .ok blocks ∧
      printFull fuel blocks (loadLoop caseTable isIPv6 D (emptyWordMap, [])).1
        (loadLoop caseTable isIPv6 D (emptyWordMap, [])).2 isIPv6 = .ok reports ∧
      reports.length = words.length ∧
      ∀ i w, words[i]? = some w →
        ∃ bucket, reports[i]? = some (FullLine.found (i + 1) (getIPBlock w isIPv6) bucket) ∧
          (loadLoop caseTable isIPv6 D (emptyWordMap, [])).1 (getIPBlock w isIPv6) =
            some bucket ∧
          w ∈ bucket := by
  rw [loadLoop_eq] at hD ⊢
  have hin : ∀ w ∈ words, w ∈ D.map (stringsToLower caseTable) := hD
  have hall : ∀ b ∈ words.map (fun w => getIPBlock w isIPv6),
      ∃ bucket, bucketOf isIPv6 (D.map (stringsToLower caseTable)) b = some bucket := by
    intro b hb
    obtain ⟨w, hw, rfl⟩ := List.mem_map.1 hb
    obtain ⟨bucket, h1, _⟩ := mem_bucketOf isIPv6 _ w (hin w hw)
    exact ⟨bucket, h1⟩
  obtain ⟨reports, hr, hrl, hpos⟩ := printFullLoop_found fuel _
    (D.map (stringsToLower caseTable)) isIPv6 _ 0 hall
  refine ⟨_, _, reports, generateIP_of_length words isIPv6 hlen,
    reverseIPValidate_generated intSize digitTable hsize words isIPv6 hlen, hr, ?_, ?_⟩
  · rw [hrl, List.length_map]
  · intro i w hi
    have hbi : (words.map (fun w => getIPBlock w isIPv6))[i]? = some (getIPBlock w isIPv6) := by
      rw [List.getElem?_map, hi]
      rfl
    obtain ⟨bucket, hb, hrep⟩ := hpos i _ hbi
    obtain ⟨bucket2, hb2, hw2⟩ := mem_bucketOf isIPv6 _ w (hin w (List.getElem?_mem hi))
    rw [hb] at hb2
    simp only [Option.some.injEq] at hb2
    subst hb2
    refine ⟨bucket, ?_, hb, hw2⟩
    rw [hrep]
    simp

/-- The words `aaa`, `bbb`, `ccc`, `ddd` against the word list `DDD`, `aaa`, `CcC`, `bbb`,
`AAA`, which is loaded as `ddd`, `aaa`, `ccc`, `bbb`, `aaa`: the address `104.203.46.145` is
validated and `aaa` is among the words reported for the block `104`. -/
theorem full_mode_round_trip_witness :
    ((loadLoop id false ["DDD".toList, "aaa".toList, "CcC".toList, "bbb".toList, "AAA".toList]
        (emptyWordMap, [])).2 =
        ["ddd".toList, "aaa".toList, "ccc".toList, "bbb".toList, "aaa".toList] ∧
      (loadLoop id false ["DDD".toList, "aaa".toList, "CcC".toList, "bbb".toList, "AAA".toList]
        (emptyWordMap, [])).1 "104".toList = some ["aaa".toList, "aaa".toList]) ∧
    ∃ (address : Str) (blocks : List Str) (reports : List FullLine),
      generateIP ["aaa".toList, "bbb".toList, "ccc".toList, "ddd".toList] false = .ok address ∧
      reverseIPValidate 64 unicodeDigit15 address false = .ok blocks ∧
      printFull 0 blocks
        (loadLoop id false ["DDD".toList, "aaa".toList, "CcC".toList, "bbb".toList, "AAA".toList]
          (emptyWordMap, [])).1
        (loadLoop id false ["DDD".toList, "aaa".toList, "CcC".toList, "bbb".toList, "AAA".toList]
          (emptyWordMap, [])).2 false = .ok reports ∧
      reports.length = ["aaa".toList, "bbb".toList, "ccc".toList, "ddd".toList].length ∧
      ∀ i w, ["aaa".toList, "bbb".toList, "ccc".toList, "ddd".toList][i]? = some w →
        ∃ bucket, reports[i]? = some (FullLine.found (i + 1) (getIPBlock w false) bucket) ∧
          (loadLoop id false
            ["DDD".toList, "aaa".toList, "CcC".toList, "bbb".toList, "AAA".toList]
            (emptyWordMap, [])).1 (getIPBlock w false) = some bucket ∧
          w ∈ bucket :=
  ⟨by decide,
    full_mode_round_trip 64 unicodeDigit15 (Or.inr rfl) id false
      ["DDD".toList, "aaa".toList, "CcC".toList, "bbb".toList, "AAA".toList]
      ["aaa".toList, "bbb".toList, "ccc".toList, "ddd".toList] 0 (by decide) (by decide)⟩

/-! ## Validation of an address -/

theorem firstInvalidBlock_eq_none_iff (intSize : Nat) (digitTable : Char → Bool)
    (isIPv6 : Bool) (bs : List Str) :
    firstInvalidBlock intSize digitTable isIPv6 bs = none ↔
      ∀ b ∈ bs, isValidBlock intSize digitTable b isIPv6 = true := by
  induction bs with
  | nil => simp [firstInvalidBlock]
  | cons b bs ih =>
    unfold firstInvalidBlock
    by_cases hb : isValidBlock intSize digitTable b isIPv6 = true
    · simp only [hb, Bool.not_true, Bool.false_eq_true, if_false, ih, List.mem_cons,
        forall_eq_or_imp, true_and]
    · simp only [Bool.not_eq_true] at hb
      simp [hb]

theorem firstInvalidBlock_append (intSize : Nat) (digitTable : Char → Bool)
    (isIPv6 : Bool) (pre : List Str) (b : Str)
    (post : List Str) (hpre : ∀ x ∈ pre, isValidBlock intSize digitTable x isIPv6 = true)
    (hb : isValidBlock intSize digitTable b isIPv6 = false) :
    firstInvalidBlock intSize digitTable isIPv6 (pre ++ b :: post) = some b := by
  induction pre with
  | nil => simp [firstInvalidBlock, hb]
  | cons x xs ih =>
    rw [List.cons_append]
    unfold firstInvalidBlock
    simp only [hpre x (List.mem_cons_self _ _), Bool.not_true, Bool.false_eq_true, if_false]
    exact ih (fun y hy => hpre y (List.mem_cons_of_mem _ hy))

theorem reverseIPValidate_unfold (intSize : Nat) (digitTable : Char → Bool)
    (ipAddress : Str) (isIPv6 : Bool) :
    reverseIPValidate intSize digitTable ipAddress isIPv6 =
      if (stringsSplit ipAddress (if isIPv6 then ':' else '.')).length ≠
          (if isIPv6 then 8 else 4) then
        .error ("Error: Please provide a valid ".toList ++ ipType isIPv6 ++
          " address with exactly ".toList ++ fmtD (if isIPv6 then 8 else 4) ++
          " blocks.".toList)
      else
        match firstInvalidBlock intSize digitTable isIPv6
            (stringsSplit ipAddress (if isIPv6 then ':' else '.')) with
        | some block =>
          .error ("Error: Block ".toList ++ block ++ " is not a valid ".toList ++
            blockType isIPv6 ++ " value.".toList)
        | none => .ok (stringsSplit ipAddress (if isIPv6 then ':' else '.')) := by
  cases isIPv6 <;> rfl

/-- C11: the validation at the head of `reverseIP` succeeds exactly when the split on the
separator of the family gives the block count of the family (8 or 4) and every piece passes
`isValidBlock`; on success the pieces passed on are the split pieces in order; with a wrong count
the error is the block-count error, whatever the pieces are (`12:34` as IPv6); and with the right
count the error names the first piece, in order, that is not valid. -/
theorem reverseIPValidate_spec (intSize : Nat) (digitTable : Char → Bool)
    (ipAddress : Str) (isIPv6 : Bool) :
    ((∃ bs, reverseIPValidate intSize digitTable ipAddress isIPv6 = .ok bs) ↔
      (stringsSplit ipAddress (if isIPv6 then ':' else '.')).length = (if isIPv6 then 8 else 4) ∧
        ∀ b ∈ stringsSplit ipAddress (if isIPv6 then ':' else '.'),
          isValidBlock intSize digitTable b isIPv6 = true) ∧
    (∀ bs, reverseIPValidate intSize digitTable ipAddress isIPv6 = .ok bs →
      bs = stringsSplit ipAddress (if isIPv6 then ':' else '.')) ∧
    ((stringsSplit ipAddress (if isIPv6 then ':' else '.')).length ≠ (if isIPv6 then 8 else 4) →
      reverseIPValidate intSize digitTable ipAddress isIPv6 =
        .error ("Error: Please provide a valid ".toList ++ (if isIPv6 then "IPv6" else "IPv4").toList
          ++ " address with exactly ".toList ++ (if isIPv6 then "8" else "4").toList ++
          " blocks.".toList)) ∧
    ((stringsSplit ipAddress (if isIPv6 then ':' else '.')).length = (if isIPv6 then 8 else 4) →
      ∀ (pre : List Str) (b : Str) (post : List Str),
        stringsSplit ipAddress (if isIPv6 then ':' else '.') = pre ++ b :: post →
        (∀ x ∈ pre, isValidBlock intSize digitTable x isIPv6 = true) →
        isValidBlock intSize digitTable b isIPv6 = false →
        reverseIPValidate intSize digitTable ipAddress isIPv6 =
          .error ("Error: Block ".toList ++ b ++ " is not a valid ".toList ++
            (if isIPv6 then "hex" else "number").toList ++ " value.".toList)) ∧
    reverseIPValidate intSize digitTable "12:34".toList true =
      .error "Error: Please provide a valid IPv6 address with exactly 8 blocks.".toList := by
  rw [reverseIPValidate_unfold]
  refine ⟨?_, ?_, ?_, ?_, ?_⟩
  · by_cases hl : (stringsSplit ipAddress (if isIPv6 then ':' else '.')).length =
        (if isIPv6 then 8 else 4)
    · rw [if_neg (by simp [hl])]
      cases hf : firstInvalidBlock intSize digitTable isIPv6
          (stringsSplit ipAddress (if isIPv6 then ':' else '.')) with
      | none =>
        have hall := (firstInvalidBlock_eq_none_iff intSize digitTable isIPv6 _).1 hf
        exact ⟨fun _ => ⟨hl, hall⟩, fun _ => ⟨_, rfl⟩⟩
      | some b =>
        constructor
        · rintro ⟨bs, hbs⟩
          exact absurd hbs (by simp)
        · rintro ⟨_, hall⟩
          rw [(firstInvalidBlock_eq_none_iff intSize digitTable isIPv6 _).2 hall] at hf
          exact absurd hf (by simp)
    · rw [if_pos hl]
      constructor
      · rintro ⟨bs, hbs⟩
        exact absurd hbs (by simp)
      · rintro ⟨h, _⟩
        exact absurd h hl
  · intro bs hbs
    by_cases hl : (stringsSplit ipAddress (if isIPv6 then ':' else '.')).length =
        (if isIPv6 then 8 else 4)
    · rw [if_neg (by simp [hl])] at hbs
      cases hf : firstInvalidBlock intSize digitTable isIPv6
          (stringsSplit ipAddress (if isIPv6 then ':' else '.')) with
      | none =>
        rw [hf] at hbs
        simp only [Except.ok.injEq] at hbs
        exact hbs.symm
      | some b =>
        rw [hf] at hbs
        exact absurd hbs (by simp)
    · rw [if_pos hl] at hbs
      exact absurd hbs (by simp)
  · intro hl
    rw [if_pos hl]
    cases isIPv6 <;> rfl
  · intro hl pre b post hsplit hpre hb
    rw [if_neg (by simp [hl]), hsplit,
      firstInvalidBlock_append intSize digitTable isIPv6 pre b post hpre hb]
    cases isIPv6 <;> rfl
  · rfl

/-! ## The arity check of the forward direction -/

/-- C12: `generateIP` prints the arity error exactly when the number of words differs from the
block count of the family, 4 for IPv4 and 8 for IPv6; the error names that count and the
separator; an address is printed exactly when the count is right, so none is printed with the
error; three words fail for IPv4. -/
theorem generateIP_arity (words : List Str) :
    (generateIP words false =
        .error "Error: Please provide exactly 4 words separated by ..".toList ↔
      words.length ≠ 4) ∧
    (generateIP words true =
        .error "Error: Please provide exactly 8 words separated by :.".toList ↔
      words.length ≠ 8) ∧
    (∀ isIPv6 : Bool, (∃ address, generateIP words isIPv6 = .ok address) ↔
      words.length = if isIPv6 then 8 else 4) ∧
    (∀ (isIPv6 : Bool) (line : Str), generateIP words isIPv6 = .error line →
      words.length ≠ (if isIPv6 then 8 else 4) ∧
        ∀ address, generateIP words isIPv6 ≠ .ok address) ∧
    generateIP ["aaa".toList, "bbb".toList, "ccc".toList] false =
      .error "Error: Please provide exactly 4 words separated by ..".toList := by
  refine ⟨?_, ?_, ?_, ?_, by decide⟩
  · by_cases h : words.length = 4
    · rw [generateIP_of_length words false (by simpa using h)]
      simp [h]
    · simp only [generateIP, Bool.not_false, if_true, ne_eq, h, not_false_eq_true, iff_true]
      rfl
  · by_cases h : words.length = 8
    · rw [generateIP_of_length words true (by simpa using h)]
      simp [h]
    · simp only [generateIP, Bool.not_true, Bool.false_eq_true, if_false, ne_eq, h,
        not_false_eq_true, if_true, iff_true]
      rfl
  · intro isIPv6
    by_cases h : words.length = if isIPv6 then 8 else 4
    · rw [generateIP_of_length words isIPv6 h]
      simp [h]
    · constructor
      · rintro ⟨a, ha⟩
        cases isIPv6 <;> simp_all [generateIP]
      · intro h2
        exact absurd h2 h
  · intro isIPv6 line hline
    by_cases h : words.length = if isIPv6 then 8 else 4
    · rw [generateIP_of_length words isIPv6 h] at hline
      exact absurd hline (by simp)
    · refine ⟨h, fun address ha => ?_⟩
      rw [ha] at hline
      exact absurd hline (by simp)

/-! ## Forward blocks and the validator -/

/-- C17: every block that the forward direction can produce is accepted by the validator of the
reverse direction, for both families (the platform integer having 32 or 64 bits). -/
theorem isValidBlock_getIPBlock (intSize : Nat) (digitTable : Char → Bool)
    (hsize : intSize = 32 ∨ intSize = 64) (w : Str)
    (isIPv6 : Bool) : isValidBlock intSize digitTable (getIPBlock w isIPv6) isIPv6 = true :=
  isValidBlock_block intSize digitTable hsize w isIPv6

/-- The blocks `55` and `9e37` of the word `apple` are accepted. -/
theorem isValidBlock_getIPBlock_witness :
    (getIPBlock "apple".toList false = "55".toList ∧
      getIPBlock "apple".toList true = "9e37".toList) ∧
    isValidBlock 64 unicodeDigit15 (getIPBlock "apple".toList false) false = true ∧
    isValidBlock 32 unicodeDigit15 (getIPBlock "apple".toList true) true = true :=
  ⟨by decide, isValidBlock_getIPBlock 64 unicodeDigit15 (Or.inr rfl) "apple".toList false,
    isValidBlock_getIPBlock 32 unicodeDigit15 (Or.inl rfl) "apple".toList true⟩

/-! ## Random selection -/

theorem printRandomLoop_ne_crash (fuel : Nat) (rand : Nat → Nat) (m : WordMap)
    (allWords : List Str) (isIPv6 : Bool)
    (hm : ∀ key bucket, m key = some bucket → bucket ≠ []) (blocks : List Str) :
    ∀ (calls : Nat) (result : List Str),
      printRandomLoop fuel rand m allWords isIPv6 blocks calls result ≠ .error Halt.crash := by
  induction blocks with
  | nil =>
    intro calls result
    simp [printRandomLoop]
  | cons block rest ih =>
    intro calls result
    unfold printRandomLoop
    cases hb : m block with
    | none =>
      cases hf : generateFallbackWord fuel allWords block isIPv6 with
      | none => simp
      | some fw => exact ih _ _
    | some words =>
      have hne : words.length ≠ 0 := fun h => hm block words hb (List.length_eq_zero.1 h)
      have hlt : rand calls % words.length < words.length := Nat.mod_lt _ (by omega)
      simp only [hne, if_false, List.get?_eq_get hlt]
      exact ih _ _

/-- C18: in the index built by the loading loop every key that is present is bound to a
non-empty list; hence at a block that is found the bound passed to `rand.Intn` is at least 1,
the drawn position is a valid index of the bucket, and `printRandom` never crashes, for every
list of blocks, every word list and every stream of draws. -/
theorem printRandom_never_crashes (caseTable : Char → Char) (lines : List Str) (isIPv6 : Bool) :
    (∀ key bucket, (loadLoop caseTable isIPv6 lines (emptyWordMap, [])).1 key = some bucket →
      1 ≤ bucket.length ∧
        ∀ raw : Nat, raw % bucket.length < bucket.length ∧
          ∃ word, bucket.get? (raw % bucket.length) = some word) ∧
    (∀ (fuel : Nat) (rand : Nat → Nat) (blocks : List Str),
      printRandomWords fuel rand blocks (loadLoop caseTable isIPv6 lines (emptyWordMap, [])).1
          (loadLoop caseTable isIPv6 lines (emptyWordMap, [])).2 isIPv6 ≠ .error Halt.crash ∧
      printRandom fuel rand blocks (loadLoop caseTable isIPv6 lines (emptyWordMap, [])).1
          (loadLoop caseTable isIPv6 lines (emptyWordMap, [])).2 isIPv6 ≠ .error Halt.crash) := by
  rw [loadLoop_eq]
  have hne : ∀ key bucket,
      bucketOf isIPv6 (lines.map (stringsToLower caseTable)) key = some bucket → bucket ≠ [] :=
    fun key bucket h => (bucketOf_eq_some isIPv6 _ bucket key h).2
  refine ⟨?_, ?_⟩
  · intro key bucket hb
    have hpos : 0 < bucket.length := List.length_pos.2 (hne key bucket hb)
    refine ⟨hpos, fun raw => ?_⟩
    have hlt : raw % bucket.length < bucket.length := Nat.mod_lt _ hpos
    exact ⟨hlt, _, List.get?_eq_get hlt⟩
  · intro fuel rand blocks
    have h1 := printRandomLoop_ne_crash fuel rand _ (lines.map (stringsToLower caseTable))
      isIPv6 hne blocks 0 []
    refine ⟨h1, ?_⟩
    unfold printRandom
    unfold printRandomWords at *
    cases hr : printRandomLoop fuel rand (bucketOf isIPv6 (lines.map (stringsToLower caseTable)))
        (lines.map (stringsToLower caseTable)) isIPv6 blocks 0 [] with
    | error e =>
      rw [hr] at h1
      simpa using h1
    | ok ws => simp

/-! ## The order of the fallback search -/

theorem fallbackInner_none_all (block : Str) (isIPv6 : Bool) (i : Nat) (ws : List Str)
    (h : fallbackInner block isIPv6 i ws = none) :
    ∀ w ∈ ws, getIPBlock (w ++ fmtD i) isIPv6 ≠ block := by
  induction ws with
  | nil => intro w hw; exact absurd hw (List.not_mem_nil w)
  | cons x xs ih =>
    unfold fallbackInner at h
    by_cases hx : getIPBlock (x ++ fmtD i) isIPv6 = block
    · simp [hx] at h
    · simp only [hx, if_false] at h
      intro w hw
      rcases List.mem_cons.1 hw with rfl | hw
      · exact hx
      · exact ih h w hw

theorem fallbackInner_some_first (block : Str) (isIPv6 : Bool) (i : Nat) (ws : List Str)
    (r : Str) (h : fallbackInner block isIPv6 i ws = some r) :
    ∃ (j : Nat) (w : Str), ws[j]? = some w ∧ r = w ++ fmtD i ∧ getIPBlock r isIPv6 = block ∧
      ∀ (j2 : Nat) (w2 : Str), j2 < j → ws[j2]? = some w2 →
        getIPBlock (w2 ++ fmtD i) isIPv6 ≠ block := by
  induction ws with
  | nil => simp [fallbackInner] at h
  | cons x xs ih =>
    unfold fallbackInner at h
    by_cases hx : getIPBlock (x ++ fmtD i) isIPv6 = block
    · simp only [hx, if_true, Option.some.injEq] at h
      subst h
      exact ⟨0, x, by simp, rfl, hx, fun j2 w2 hj => absurd hj (Nat.not_lt_zero _)⟩
    · simp only [hx, if_false] at h
      obtain ⟨j, w, hj, hr, hb, hmin⟩ := ih h
      refine ⟨j + 1, w, by simpa using hj, hr, hb, ?_⟩
      intro j2 w2 hlt hw2
      cases j2 with
      | zero =>
        simp only [List.getElem?_cons_zero, Option.some.injEq] at hw2
        subst hw2
        exact hx
      | succ j2 =>
        simp only [List.getElem?_cons_succ] at hw2
        exact hmin j2 w2 (by omega) hw2

theorem fallbackFrom_first (allWords : List Str) (block : Str) (isIPv6 : Bool) (fuel : Nat) :
    ∀ (i0 : Nat) (r : Str), fallbackFrom allWords block isIPv6 fuel i0 = some r →
      ∃ (i j : Nat) (w : Str), i0 ≤ i ∧ allWords[j]? = some w ∧ r = w ++ fmtD i ∧
        getIPBlock r isIPv6 = block ∧
        ∀ (i2 j2 : Nat) (w2 : Str), i0 ≤ i2 → (i2 < i ∨ (i2 = i ∧ j2 < j)) →
          allWords[j2]? = some w2 → getIPBlock (w2 ++ fmtD i2) isIPv6 ≠ block := by
  induction fuel with
  | zero => intro i0 r h; simp [fallbackFrom] at h
  | succ fuel ih =>
    intro i0 r h
    unfold fallbackFrom at h
    cases hin : fallbackInner block isIPv6 i0 allWords with
    | some x =>
      rw [hin] at h
      simp only [Option.some.injEq] at h
      subst h
      obtain ⟨j, w, hj, hr, hb, hmin⟩ := fallbackInner_some_first block isIPv6 i0 allWords x hin
      refine ⟨i0, j, w, le_refl _, hj, hr, hb, ?_⟩
      intro i2 j2 w2 hi2 hlt hw2
      rcases hlt with hlt | ⟨rfl, hlt⟩
      · omega
      · exact hmin j2 w2 hlt hw2
    | none =>
      rw [hin] at h
      obtain ⟨i, j, w, hi, hj, hr, hb, hmin⟩ := ih (i0 + 1) r h
      refine ⟨i, j, w, by omega, hj, hr, hb, ?_⟩
      intro i2 j2 w2 hi2 hlt hw2
      by_cases he : i2 = i0
      · subst he
        exact fallbackInner_none_all block isIPv6 i2 allWords hin w2 (List.getElem?_mem hw2)
      · exact hmin i2 j2 w2 (by omega) hlt hw2

theorem fallbackFrom_more_fuel (allWords : List Str) (block : Str) (isIPv6 : Bool)
    (fuel : Nat) :
    ∀ (i0 k : Nat) (r : Str), fallbackFrom allWords block isIPv6 fuel i0 = some r →
      fallbackFrom allWords block isIPv6 (fuel + k) i0 = some r := by
  induction fuel with
  | zero => intro i0 k r h; simp [fallbackFrom] at h
  | succ fuel ih =>
    intro i0 k r h
    rw [Nat.add_right_comm]
    unfold fallbackFrom at h ⊢
    cases hin : fallbackInner block isIPv6 i0 allWords with
    | some x =>
      rw [hin] at h
      exact h
    | none =>
      rw [hin] at h
      exact ih (i0 + 1) k r h

theorem generateFallbackWord_unique (allWords : List Str) (block : Str) (isIPv6 : Bool)
    (fuel1 fuel2 : Nat) (r1 r2 : Str)
    (h1 : generateFallbackWord fuel1 allWords block isIPv6 = some r1)
    (h2 : generateFallbackWord fuel2 allWords block isIPv6 = some r2) : r2 = r1 := by
  unfold generateFallbackWord at h1 h2
  rcases Nat.le_total fuel1 fuel2 with hle | hle
  · have h3 := fallbackFrom_more_fuel allWords block isIPv6 fuel1 0 (fuel2 - fuel1) r1 h1
    rw [Nat.add_sub_cancel' hle, h2] at h3
    exact Option.some.inj h3
  · have h3 := fallbackFrom_more_fuel allWords block isIPv6 fuel2 0 (fuel1 - fuel2) r2 h2
    rw [Nat.add_sub_cancel' hle, h1] at h3
    exact (Option.some.inj h3).symm

/-- C15: when `generateFallbackWord` returns, the result is the candidate of some counter `i`
and some position `j` of the list, and no earlier candidate matches: for every counter below
`i`, and for the counter `i` at every position below `j`, the block of the candidate differs from
the target.  The result does not depend on the bound on the counter: it is a function of the
list in its order, the target and the family. -/
theorem generateFallbackWord_first_match (fuel : Nat) (allWords : List Str) (block : Str)
    (isIPv6 : Bool) (r : Str)
    (h : generateFallbackWord fuel allWords block isIPv6 = some r) :
    (∃ (i j : Nat) (w : Str), allWords[j]? = some w ∧ r = w ++ fmtD i ∧
      getIPBlock r isIPv6 = block ∧
      ∀ (i2 j2 : Nat) (w2 : Str), (i2 < i ∨ (i2 = i ∧ j2 < j)) → allWords[j2]? = some w2 →
        getIPBlock (w2 ++ fmtD i2) isIPv6 ≠ block) ∧
    (∀ fuel2 r2, generateFallbackWord fuel2 allWords block isIPv6 = some r2 → r2 = r) := by
  refine ⟨?_, fun fuel2 r2 h2 =>
    generateFallbackWord_unique allWords block isIPv6 fuel fuel2 r r2 h h2⟩
  obtain ⟨i, j, w, _, hj, hr, hb, hmin⟩ := fallbackFrom_first allWords block isIPv6 fuel 0 r h
  exact ⟨i, j, w, hj, hr, hb, fun i2 j2 w2 hlt hw2 => hmin i2 j2 w2 (Nat.zero_le _) hlt hw2⟩

/-- With the list `b`, `a` and the IPv4 target `247` the generator returns `a1`, the candidate
of the counter 1 at position 1, after the candidates `b0`, `a0`, `b1`. -/
theorem generateFallbackWord_first_match_witness :
    generateFallbackWord 3 ["b".toList, "a".toList] "247".toList false = some "a1".toList ∧
    ((∃ (i j : Nat) (w : Str), ["b".toList, "a".toList][j]? = some w ∧
        "a1".toList = w ++ fmtD i ∧ getIPBlock "a1".toList false = "247".toList ∧
        ∀ (i2 j2 : Nat) (w2 : Str), (i2 < i ∨ (i2 = i ∧ j2 < j)) →
          ["b".toList, "a".toList][j2]? = some w2 →
          getIPBlock (w2 ++ fmtD i2) false ≠ "247".toList) ∧
      (∀ fuel2 r2, generateFallbackWord fuel2 ["b".toList, "a".toList] "247".toList false =
        some r2 → r2 = "a1".toList)) :=
  ⟨by decide,
    generateFallbackWord_first_match 3 ["b".toList, "a".toList] "247".toList false "a1".toList
      (by decide)⟩

/-! ## The empty dictionary -/

theorem generateFallbackWord_nil (fuel : Nat) (block : Str) (isIPv6 : Bool) :
    generateFallbackWord fuel [] block isIPv6 = none := by
  unfold generateFallbackWord
  generalize 0 = i0
  induction fuel generalizing i0 with
  | zero => rfl
  | succ fuel ih =>
    unfold fallbackFrom
    simp only [fallbackInner]
    exact ih (i0 + 1)

theorem reverseIP_empty_dictionary (intSize : Nat) (digitTable : Char → Bool)
    (caseTable : Char → Char) (fuel : Nat)
    (rand : Nat → Nat) (ipAddress : Str) (isIPv6 full : Bool) (blocks : List Str)
    (hvalid : reverseIPValidate intSize digitTable ipAddress isIPv6 = .ok blocks) :
    reverseIP intSize digitTable caseTable (.ok []) fuel rand ipAddress isIPv6 full =
      .error Halt.outOfFuel := by
  obtain ⟨_, hlen⟩ := reverseIPValidate_ok intSize digitTable ipAddress isIPv6 blocks hvalid
  have hne : blocks ≠ [] := by
    intro h
    rw [h] at hlen
    cases isIPv6 <;> simp at hlen
  obtain ⟨b, bs, rfl⟩ := List.exists_cons_of_ne_nil hne
  cases full <;>
    simp [reverseIP, hvalid, loadWordMappings, loadLoop, printRandom, printRandomWords,
      printRandomLoop, printFull, printFullLoop, emptyWordMap, generateFallbackWord_nil]

/-- C14, as the claim states it: with an empty word list the generator has reported nothing
and returned nothing after any number of rounds, and the reverse resolution of `1.2.3.4` against
an empty dictionary is not complete after any number of rounds: no error is reported. -/
theorem empty_dictionary_counterexample :
    (∀ fuel, generateFallbackWord fuel [] "1".toList false = none) ∧
    (∀ fuel rand,
      reverseIP 64 unicodeDigit15 id (.ok []) fuel rand "1.2.3.4".toList false false =
        .error Halt.outOfFuel) ∧
    (∀ fuel rand,
      reverseIP 64 unicodeDigit15 id (.ok []) fuel rand "1.2.3.4".toList false true =
        .error Halt.outOfFuel) :=
  ⟨fun fuel => generateFallbackWord_nil fuel _ false,
    fun fuel rand =>
      reverseIP_empty_dictionary 64 unicodeDigit15 id fuel rand "1.2.3.4".toList false false
        ["1".toList, "2".toList, "3".toList, "4".toList] (by decide),
    fun fuel rand =>
      reverseIP_empty_dictionary 64 unicodeDigit15 id fuel rand "1.2.3.4".toList false true
        ["1".toList, "2".toList, "3".toList, "4".toList] (by decide)⟩

/-- C14, amended: with an empty word list the fallback generator never returns and reports
nothing, whatever the target block, the family and the number of rounds; so the reverse
resolution of a validated address against an empty dictionary, in either mode, is never
complete. -/
theorem empty_dictionary_never_returns (intSize : Nat) (digitTable : Char → Bool)
    (caseTable : Char → Char) (fuel : Nat)
    (rand : Nat → Nat) (ipAddress : Str) (isIPv6 full : Bool) (blocks : List Str)
    (hvalid : reverseIPValidate intSize digitTable ipAddress isIPv6 = .ok blocks) :
    (∀ block, generateFallbackWord fuel [] block isIPv6 = none) ∧
    reverseIP intSize digitTable caseTable (.ok []) fuel rand ipAddress isIPv6 full =
      .error Halt.outOfFuel :=
  ⟨fun block => generateFallbackWord_nil fuel block isIPv6,
    reverseIP_empty_dictionary intSize digitTable caseTable fuel rand ipAddress isIPv6 full
      blocks hvalid⟩

/-- The address `1.2.3.4` in Random mode, after 1000 rounds. -/
theorem empty_dictionary_never_returns_witness :
    reverseIPValidate 64 unicodeDigit15 "1.2.3.4".toList false =
      .ok ["1".toList, "2".toList, "3".toList, "4".toList] ∧
    ((∀ block, generateFallbackWord 1000 [] block false = none) ∧
      reverseIP 64 unicodeDigit15 id (.ok []) 1000 (fun _ => 0) "1.2.3.4".toList false false =
        .error Halt.outOfFuel) :=
  ⟨by decide,
    empty_dictionary_never_returns 64 unicodeDigit15 id 1000 (fun _ => 0) "1.2.3.4".toList
      false false
      ["1".toList, "2".toList, "3".toList, "4".toList] (by decide)⟩

/-! ## Letter case -/

theorem toNat_ofNat_lower (n : Nat) (h1 : 65 ≤ n) (h2 : n ≤ 90) :
    (Char.ofNat (n + 32)).toNat = n + 32 := by
  interval_cases n <;> rfl

theorem toNat_unicodeToLower (caseTable : Char → Char) (c : Char) (hc : c.toNat ≤ 127) :
    (unicodeToLower caseTable c).toNat =
      if 65 ≤ c.toNat ∧ c.toNat ≤ 90 then c.toNat + 32 else c.toNat := by
  unfold unicodeToLower
  rw [if_pos hc]
  by_cases hu : 65 ≤ c.toNat ∧ c.toNat ≤ 90
  · rw [if_pos hu, if_pos (by simpa using hu)]
    exact toNat_ofNat_lower c.toNat hu.1 hu.2
  · rw [if_neg hu, if_neg (by simpa using hu)]

theorem upperCount_cons (c : Char) (cs : Str) :
    upperCount (c :: cs) = upperCount cs + if 65 ≤ c.toNat ∧ c.toNat ≤ 90 then 1 else 0 := by
  unfold upperCount
  rw [List.countP_cons]
  simp

/-- Lowercasing an ASCII word adds 32 to the hash, modulo 256, for each uppercase letter. -/
theorem foldl_djb2Step_lower (caseTable : Char → Char) (w : Str)
    (hw : ∀ c ∈ w, c.toNat ≤ 127) :
    ∀ h1 h2 k0 : Nat, h2 % 256 = (h1 + 32 * k0) % 256 →
      (List.foldl djb2Step h2 (stringsToLower caseTable w)) % 256 =
        (List.foldl djb2Step h1 w + 32 * (k0 + upperCount w)) % 256 := by
  induction w with
  | nil =>
    intro h1 h2 k0 h
    simpa [stringsToLower, upperCount] using h
  | cons c cs ih =>
    intro h1 h2 k0 h
    have hc : c.toNat ≤ 127 := hw c (List.mem_cons_self _ _)
    have hstep : djb2Step h2 (unicodeToLower caseTable c) % 256 =
        (djb2Step h1 c + 32 * (k0 + if 65 ≤ c.toNat ∧ c.toNat ≤ 90 then 1 else 0)) % 256 := by
      rw [djb2Step_eq, djb2Step_eq, toNat_unicodeToLower caseTable c hc]
      split_ifs <;> omega
    have := ih (fun x hx => hw x (List.mem_cons_of_mem _ hx)) _ _ _ hstep
    simp only [stringsToLower, List.map_cons, List.foldl_cons] at this ⊢
    rw [this, upperCount_cons]
    congr 1
    ring

theorem djb2Hash_lower_mod (caseTable : Char → Char) (w : Str)
    (hw : ∀ c ∈ w, c.toNat ≤ 127) :
    djb2Hash (stringsToLower caseTable w) % 256 = (djb2Hash w + 32 * upperCount w) % 256 := by
  have := foldl_djb2Step_lower caseTable w hw 5381 5381 0 (by simp)
  simpa [djb2Hash] using this

theorem fmtD_injective (a b : Nat) (h : fmtD a = fmtD b) : a = b := by
  have := congrArg decimalValue h
  rwa [decimalValue_fmtD, decimalValue_fmtD] at this

theorem fmt04x_injective (a b : Nat) (ha : a < 65536) (hb : b < 65536)
    (h : fmt04x a = fmt04x b) : a = b := by
  have := congrArg hexValue h
  rwa [(fmt04x_props a ha).2.2, (fmt04x_props b hb).2.2] at this

/-- C19: for a word of ASCII characters with `k` uppercase letters, the IPv4 block of the word
equals the IPv4 block of its lowercased form exactly when `k` is a multiple of 8; with exactly
one uppercase letter the two blocks differ. -/
theorem ipv4_block_case_effect (caseTable : Char → Char) (w : Str)
    (hw : ∀ c ∈ w, c.toNat ≤ 127) :
    (getIPBlock w false = getIPBlock (stringsToLower caseTable w) false ↔ 8 ∣ upperCount w) ∧
    (upperCount w = 1 →
      getIPBlock w false ≠ getIPBlock (stringsToLower caseTable w) false) := by
  have hmod := djb2Hash_lower_mod caseTable w hw
  have hiff : getIPBlock w false = getIPBlock (stringsToLower caseTable w) false ↔
      8 ∣ upperCount w := by
    simp only [getIPBlock, Bool.false_eq_true, if_false]
    constructor
    · intro h
      have := fmtD_injective _ _ h
      omega
    · intro h
      have : djb2Hash w % 256 = djb2Hash (stringsToLower caseTable w) % 256 := by omega
      rw [this]
  refine ⟨hiff, fun h1 heq => ?_⟩
  have := hiff.1 heq
  omega

/-- The word `AAAAAAAA` has 8 uppercase letters and the same IPv4 block as `aaaaaaaa`, the word
`Apple` has one and a different block than `apple`. -/
theorem ipv4_block_case_effect_witness :
    (upperCount "AAAAAAAA".toList = 8 ∧
      getIPBlock "AAAAAAAA".toList false = getIPBlock "aaaaaaaa".toList false ∧
      getIPBlock "Apple".toList false ≠ getIPBlock "apple".toList false) ∧
    ((getIPBlock "Apple".toList false = getIPBlock (stringsToLower id "Apple".toList) false ↔
        8 ∣ upperCount "Apple".toList) ∧
      (upperCount "Apple".toList = 1 →
        getIPBlock "Apple".toList false ≠
          getIPBlock (stringsToLower id "Apple".toList) false)) :=
  ⟨by decide, ipv4_block_case_effect id "Apple".toList (by decide)⟩

/-- C13, as the claim states it: lowercasing changes the word `AAAAAAAA`, yet the word and
its lowercased form `aaaaaaaa` have the same IPv4 block, 141. -/
theorem case_folding_counterexample :
    stringsToLower id "AAAAAAAA".toList = "aaaaaaaa".toList ∧
    stringsToLower id "AAAAAAAA".toList ≠ "AAAAAAAA".toList ∧
    getIPBlock "AAAAAAAA".toList false =
      getIPBlock (stringsToLower id "AAAAAAAA".toList) false := by
  decide

/-- C13, amended: the hash does no case folding; for every family and every word of ASCII
characters whose number of uppercase letters is not a multiple of 8, the word and its lowercased
form have different blocks. -/
theorem block_differs_from_lowercased (caseTable : Char → Char) (isIPv6 : Bool) (w : Str)
    (hw : ∀ c ∈ w, c.toNat ≤ 127) (hk : ¬ 8 ∣ upperCount w) :
    getIPBlock w isIPv6 ≠ getIPBlock (stringsToLower caseTable w) isIPv6 := by
  have hmod := djb2Hash_lower_mod caseTable w hw
  intro heq
  apply hk
  cases isIPv6 with
  | false =>
    simp only [getIPBlock, Bool.false_eq_true, if_false] at heq
    have := fmtD_injective _ _ heq
    omega
  | true =>
    simp only [getIPBlock, if_true] at heq
    have := fmt04x_injective _ _ (Nat.mod_lt _ (by norm_num)) (Nat.mod_lt _ (by norm_num)) heq
    omega

/-- The word `Apple` has one uppercase letter: its IPv6 block `8e17` differs from the block
`9e37` of `apple`. -/
theorem block_differs_from_lowercased_witness :
    (getIPBlock "Apple".toList true = "8e17".toList ∧
      getIPBlock "apple".toList true = "9e37".toList) ∧
    getIPBlock "Apple".toList true ≠ getIPBlock (stringsToLower id "Apple".toList) true :=
  ⟨by decide, block_differs_from_lowercased id true "Apple".toList (by decide) (by decide)⟩

/-! ## Termination of the fallback search on canonical blocks -/

set_option maxRecDepth 100000 in
theorem lowDigitsTable_spec : ∀ r < 256, lowDigitsTable.getD r 0 < 10000 ∧
    digitSum 4 (lowDigitsTable.getD r 0) % 256 = r := by
  decide

set_option maxRecDepth 100000 in
theorem highDigitsTable_spec : ∀ q < 256, 100000 ≤ highDigitsTable.getD q 0 ∧
    highDigitsTable.getD q 0 < 1000000 ∧
    digitSum 6 (highDigitsTable.getD q 0) * 33 ^ 4 % 65536 = 256 * q := by
  decide

theorem digitSum_concat (k1 k2 : Nat) :
    ∀ b a : Nat, a < 10 ^ k2 →
      digitSum (k1 + k2) (b * 10 ^ k2 + a) = digitSum k1 b * 33 ^ k2 + digitSum k2 a := by
  induction k2 with
  | zero =>
    intro b a ha
    have : a = 0 := by simpa using ha
    subst this
    simp [digitSum]
  | succ k2 ih =>
    intro b a ha
    have hdiv : (b * 10 ^ (k2 + 1) + a) / 10 = b * 10 ^ k2 + a / 10 := by
      rw [pow_succ, ← Nat.mul_assoc]
      omega
    have hmod : (b * 10 ^ (k2 + 1) + a) % 10 = a % 10 := by
      rw [pow_succ, ← Nat.mul_assoc]
      omega
    have ha2 : a / 10 < 10 ^ k2 := by
      rw [pow_succ] at ha
      omega
    rw [← Nat.add_assoc]
    simp only [digitSum]
    rw [hdiv, hmod, ih b (a / 10) ha2]
    ring

theorem cover_arith (c t x y r q : Nat) (ht : t < 65536)
    (hr : r = (t + 65536 - c % 65536) % 65536) (hy : y % 256 = r % 256)
    (hq : q = (r + 65536 - y % 65536) % 65536 / 256) (hx : x % 65536 = 256 * q) :
    (c + (x + y)) % 65536 = t := by
  omega

/-- Every residue modulo 65536 is reached by appending the ten digits of some counter. -/
theorem exists_counter_digits (c t : Nat) (ht : t < 65536) :
    ∃ i, 1000000000 ≤ i ∧ i < 10000000000 ∧ (c + digitSum 10 i) % 65536 = t := by
  obtain ⟨r, hr⟩ : ∃ r, r = (t + 65536 - c % 65536) % 65536 := ⟨_, rfl⟩
  obtain ⟨ha1, ha2⟩ := lowDigitsTable_spec (r % 256) (Nat.mod_lt _ (by norm_num))
  obtain ⟨a, ha⟩ : ∃ a, a = lowDigitsTable.getD (r % 256) 0 := ⟨_, rfl⟩
  rw [← ha] at ha1 ha2
  obtain ⟨q, hq⟩ : ∃ q, q = (r + 65536 - digitSum 4 a % 65536) % 65536 / 256 := ⟨_, rfl⟩
  obtain ⟨hb1, hb2, hb3⟩ := highDigitsTable_spec q (by omega)
  obtain ⟨b, hb⟩ : ∃ b, b = highDigitsTable.getD q 0 := ⟨_, rfl⟩
  rw [← hb] at hb1 hb2 hb3
  refine ⟨b * 10 ^ 4 + a, by omega, by omega, ?_⟩
  rw [digitSum_concat 6 4 b a (by simpa using ha1)]
  exact cover_arith c t (digitSum 6 b * 33 ^ 4) (digitSum 4 a) r q ht hr ha2 hq hb3

theorem fmtD_of_lt_ten (n : Nat) (h : n < 10) : fmtD n = [Nat.digitChar n] := by
  interval_cases n <;> rfl

theorem fmtD_of_ten_le (n : Nat) (h : 10 ≤ n) :
    fmtD n = fmtD (n / 10) ++ [Nat.digitChar (n % 10)] := by
  unfold fmtD
  rw [toDigits_eq_digits 10 (by norm_num) n (by omega),
    toDigits_eq_digits 10 (by norm_num) (n / 10) (by omega),
    Nat.digits_def' (by norm_num) (by omega)]
  simp

/-- The hash after appending the numeral of a counter of exactly `k + 1` digits. -/
theorem foldl_djb2Step_fmtD (k : Nat) :
    ∀ n h : Nat, n < 10 ^ (k + 1) → (k = 0 ∨ 10 ^ k ≤ n) →
      List.foldl djb2Step h (fmtD n) % 65536 =
        (h * 33 ^ (k + 1) + digitSum (k + 1) n) % 65536 := by
  induction k with
  | zero =>
    intro n h hn _
    have hn : n < 10 := by simpa using hn
    have hd := (digitChar_props n (by omega)).2.2.1 hn
    rw [fmtD_of_lt_ten n hn]
    simp only [List.foldl_cons, List.foldl_nil, djb2Step_eq, hd, digitSum]
    omega
  | succ k ih =>
    intro n h hn hk
    have hle : 10 ^ (k + 1) ≤ n := by
      rcases hk with hk | hk
      · omega
      · exact hk
    have h10 : 10 ≤ n := le_trans (by
      rw [pow_succ]
      have : 1 ≤ 10 ^ k := Nat.one_le_pow _ _ (by norm_num)
      omega) hle
    have hlt : n / 10 < 10 ^ (k + 1) := by
      rw [pow_succ] at hn
      omega
    have hge : k = 0 ∨ 10 ^ k ≤ n / 10 := by
      right
      rw [pow_succ] at hle
      omega
    have hd := (digitChar_props (n % 10) (by omega)).2.2.1 (by omega)
    have hrec := ih (n / 10) h hlt hge
    rw [fmtD_of_ten_le n h10, List.foldl_append]
    simp only [List.foldl_cons, List.foldl_nil, djb2Step_eq, hd]
    have hring : h * 33 ^ (k + 1 + 1) + digitSum (k + 1 + 1) n =
        (h * 33 ^ (k + 1) + digitSum (k + 1) (n / 10)) * 33 + 48 + n % 10 := by
      simp only [digitSum]
      ring
    rw [hring]
    omega

/-- For every word and every value below 65536 some counter below `10 ^ 10` gives a candidate
whose hash has that value modulo 65536. -/
theorem exists_counter (w : Str) (t : Nat) (ht : t < 65536) :
    ∃ i, i < 10000000000 ∧ djb2Hash (w ++ fmtD i) % 65536 = t := by
  obtain ⟨i, h1, h2, h3⟩ := exists_counter_digits (djb2Hash w * 33 ^ 10) t ht
  refine ⟨i, h2, ?_⟩
  have := foldl_djb2Step_fmtD 9 i (djb2Hash w) (by norm_num; omega) (Or.inr (by norm_num; omega))
  unfold djb2Hash at this ⊢
  rw [List.foldl_append, this]
  exact h3

theorem fallbackFrom_returns (allWords : List Str) (block : Str) (isIPv6 : Bool) (i : Nat)
    (hmatch : ∃ w ∈ allWords, getIPBlock (w ++ fmtD i) isIPv6 = block) (fuel : Nat) :
    ∀ i0, i0 ≤ i → i < i0 + fuel →
      ∃ r, fallbackFrom allWords block isIPv6 fuel i0 = some r := by
  induction fuel with
  | zero => intro i0 h1 h2; omega
  | succ fuel ih =>
    intro i0 h1 h2
    unfold fallbackFrom
    cases hin : fallbackInner block isIPv6 i0 allWords with
    | some x => exact ⟨x, rfl⟩
    | none =>
      have hne : i0 ≠ i := by
        rintro rfl
        obtain ⟨w, hw, hb⟩ := hmatch
        exact fallbackInner_none_all block isIPv6 i0 allWords hin w hw hb
      exact ih (i0 + 1) (by omega) (by omega)

theorem hexValue_append_singleton (s : Str) (c : Char) :
    hexValue (s ++ [c]) = hexValue s * 16 + hexDigitValue c := by
  simp [hexValue, List.foldl_append]

theorem hexDigitValue_lt (c : Char) (h : isLowerHexChar c) : hexDigitValue c < 16 := by
  unfold isLowerHexChar at h
  unfold hexDigitValue
  split_ifs <;> omega

theorem hexDigitValue_injective (c d : Char) (hc : isLowerHexChar c) (hd : isLowerHexChar d)
    (h : hexDigitValue c = hexDigitValue d) : c = d := by
  unfold isLowerHexChar at hc hd
  unfold hexDigitValue at h
  have hn : c.toNat = d.toNat := by
    split_ifs at h <;> omega
  have := congrArg Char.ofNat hn
  simpa using this

/-- Two strings of hexadecimal digits of the same length and the same value are equal. -/
theorem hexValue_injective (s1 : Str) :
    ∀ s2 : Str, s1.length = s2.length → (∀ c ∈ s1, isLowerHexChar c) →
      (∀ c ∈ s2, isLowerHexChar c) → hexValue s1 = hexValue s2 → s1 = s2 := by
  induction s1 using List.reverseRecOn with
  | nil =>
    intro s2 hlen _ _ _
    exact (List.length_eq_zero.1 (by simpa using hlen.symm)).symm
  | append_singleton xs x ih =>
    intro s2 hlen h1 h2 hv
    rcases List.eq_nil_or_concat s2 with rfl | ⟨ys, y, rfl⟩
    · simp at hlen
    · simp only [List.concat_eq_append] at hlen h2 hv ⊢
      rw [hexValue_append_singleton, hexValue_append_singleton] at hv
      have hx := hexDigitValue_lt x (h1 x (by simp))
      have hy := hexDigitValue_lt y (h2 y (by simp))
      have hxy : x = y :=
        hexDigitValue_injective x y (h1 x (by simp)) (h2 y (by simp)) (by omega)
      have hrest : xs = ys :=
        ih ys (by simpa using hlen) (fun c hc => h1 c (by simp [hc]))
          (fun c hc => h2 c (by simp [hc])) (by omega)
      rw [hxy, hrest]

theorem hexValue_lt_pow (s : Str) (h : ∀ c ∈ s, isLowerHexChar c) :
    hexValue s < 16 ^ s.length := by
  induction s using List.reverseRecOn with
  | nil => simp [hexValue]
  | append_singleton cs c ih =>
    have hc := hexDigitValue_lt c (h c (by simp))
    have ih := ih (fun x hx => h x (by simp [hx]))
    rw [hexValue_append_singleton, List.length_append, List.length_singleton, pow_succ]
    omega

/-- A string of exactly 4 lowercase hexadecimal digits is the rendering of its value. -/
theorem fmt04x_hexValue (s : Str) (hlen : s.length = 4) (h : ∀ c ∈ s, isLowerHexChar c) :
    fmt04x (hexValue s) = s := by
  have hlt : hexValue s < 65536 := by
    have := hexValue_lt_pow s h
    rw [hlen] at this
    simpa using this
  obtain ⟨h1, h2, h3⟩ := fmt04x_props (hexValue s) hlt
  exact hexValue_injective _ s (by rw [h1, hlen]) h2 h h3

/-- For a canonical block some candidate of a counter below `10 ^ 10` has that block. -/
theorem exists_candidate (w : Str) (isIPv6 : Bool) (block : Str)
    (hcanon : (isIPv6 = false ∧ ∃ v, v ≤ 255 ∧ block = fmtD v) ∨
      (isIPv6 = true ∧ block.length = 4 ∧ ∀ c ∈ block, isLowerHexChar c)) :
    ∃ i, i < 10000000000 ∧ getIPBlock (w ++ fmtD i) isIPv6 = block := by
  rcases hcanon with ⟨rfl, v, hv, rfl⟩ | ⟨rfl, hlen, hhex⟩
  · obtain ⟨i, hi, hh⟩ := exists_counter w v (by omega)
    refine ⟨i, hi, ?_⟩
    simp only [getIPBlock, Bool.false_eq_true, if_false]
    congr 1
    omega
  · have hlt : hexValue block < 65536 := by
      have := hexValue_lt_pow block hhex
      rw [hlen] at this
      simpa using this
    obtain ⟨i, hi, hh⟩ := exists_counter w (hexValue block) hlt
    refine ⟨i, hi, ?_⟩
    simp only [getIPBlock, if_true]
    rw [hh]
    exact fmt04x_hexValue block hlen hhex

/-- C16: for every family, every non-empty word list and every target block in canonical form
(IPv4: the decimal numeral of a value 0..255; IPv6: exactly 4 lowercase hexadecimal digits) some
word of the list and some counter, below `10 ^ 10`, give a candidate whose block is the target;
so `generateFallbackWord` returns, within `10 ^ 10` values of the counter, a word with that
block. -/
theorem generateFallbackWord_terminates (allWords : List Str) (isIPv6 : Bool) (block : Str)
    (hne : allWords ≠ [])
    (hcanon : (isIPv6 = false ∧ ∃ v, v ≤ 255 ∧ block = fmtD v) ∨
      (isIPv6 = true ∧ block.length = 4 ∧ ∀ c ∈ block, isLowerHexChar c)) :
    (∃ w ∈ allWords, ∃ i, i < 10000000000 ∧ getIPBlock (w ++ fmtD i) isIPv6 = block) ∧
    ∃ r, generateFallbackWord 10000000000 allWords block isIPv6 = some r ∧
      getIPBlock r isIPv6 = block := by
  obtain ⟨w, ws, rfl⟩ := List.exists_cons_of_ne_nil hne
  obtain ⟨i, hi, hb⟩ := exists_candidate w isIPv6 block hcanon
  have hmatch : ∃ x ∈ w :: ws, getIPBlock (x ++ fmtD i) isIPv6 = block :=
    ⟨w, List.mem_cons_self _ _, hb⟩
  refine ⟨⟨w, List.mem_cons_self _ _, i, hi, hb⟩, ?_⟩
  obtain ⟨r, hr⟩ := fallbackFrom_returns (w :: ws) block isIPv6 i hmatch 10000000000 0
    (Nat.zero_le _) (by omega)
  obtain ⟨_, _, _, _, _, _, hblock⟩ := fallbackFrom_some (w :: ws) block isIPv6 _ 0 r hr
  exact ⟨r, hr, hblock⟩

/-- The list `a` and the canonical IPv4 block `247`: the search returns `a1`. -/
theorem generateFallbackWord_terminates_witness :
    generateFallbackWord 2 ["a".toList] "247".toList false = some "a1".toList ∧
    ((∃ w ∈ ["a".toList], ∃ i, i < 10000000000 ∧
        getIPBlock (w ++ fmtD i) false = "247".toList) ∧
      ∃ r, generateFallbackWord 10000000000 ["a".toList] "247".toList false = some r ∧
        getIPBlock r false = "247".toList) :=
  ⟨by decide,
    generateFallbackWord_terminates ["a".toList] false "247".toList (by decide)
      (Or.inl ⟨rfl, 247, by decide, by decide⟩)⟩

end Hamon
